import Mathlib

/-!
Verification of the `noat` publish engine (source: `src/index.ts`).

JavaScript strings are modelled as `List Char` (one element per UTF-16-free
code point, matching what `Array.from` iterates).  Each definition below is a
direct translation of the corresponding source function; the external
collaborators (git subprocess output, the YAML library, `JSON.parse`) are
passed in as explicit parameters.
-/

set_option maxRecDepth 100000

namespace Noat

/-- JavaScript strings, modelled as lists of Unicode code points. -/
abbrev Str := List Char

/-- Coerce a Lean string literal to the `Str` model. -/
def s2l (s : String) : Str := s.data

/-- The character class of JavaScript regex `\s` (also used by `String.trim`). -/
def jsIsSpace (c : Char) : Bool :=
  let n := c.toNat
  n == 9 || n == 10 || n == 11 || n == 12 || n == 13 || n == 32 ||
  n == 160 || n == 5760 || (8192 ≤ n && n ≤ 8202) || n == 8232 ||
  n == 8233 || n == 8239 || n == 8287 || n == 12288 || n == 65279

/-- Drop trailing characters satisfying `jsIsSpace`. -/
def dropTrailingSpace (s : Str) : Str :=
  (s.reverse.dropWhile jsIsSpace).reverse

/-- Model of JavaScript `String.prototype.trim`. -/
def jsTrim (s : Str) : Str :=
  dropTrailingSpace (s.dropWhile jsIsSpace)

/-- Model of JavaScript `String.prototype.includes` (substring test). -/
def jsIncludes (hay needle : Str) : Bool :=
  decide (needle <:+: hay)

/-- Source `trimTrailingSlash`: drop one trailing `/` if present. -/
def trimTrailingSlash (s : Str) : Str :=
  if s.getLast? = some '/' then s.dropLast else s

/-- Source `appendBacklink`: append the URL after a blank line unless the
text already contains it. -/
def appendBacklink (text backlinkUrl : Str) : Str :=
  if jsIncludes text backlinkUrl then text
  else text ++ s2l "\n\n" ++ backlinkUrl

/-- Strip a literal list prefix, returning the remainder on success. -/
def dropPre : Str → Str → Option Str
  | [], s => some s
  | _, [] => none
  | p :: ps, c :: cs => if p = c then dropPre ps cs else none

/-- Convert a nonempty digit string to its numeric value. -/
def digitsToNat (s : Str) : Nat :=
  s.foldl (fun a c => a * 10 + (c.toNat - 48)) 0

/-- Test of the source regex `^AT proto publish (\d+)$` against a trimmed
commit subject, returning the captured counter. -/
def publishSubjectNumber (subject : Str) : Option Nat :=
  match dropPre (s2l "AT proto publish ") (jsTrim subject) with
  | none => none
  | some rest =>
      if rest ≠ [] ∧ rest.all Char.isDigit then some (digitsToNat rest)
      else none

/-- The subject loop of source `getNextPublishCommitNumber`: the first
matching subject (most recent commit first) decides the result. -/
def getNextFromSubjects : List Str → Nat
  | [] => 1
  | s :: rest =>
      match publishSubjectNumber s with
      | some n => n + 1
      | none => getNextFromSubjects rest

/-- Source `getNextPublishCommitNumber`, with the text produced by
listing commit subjects (newest first, one per line) as its input. -/
def getNextPublishCommitNumber (logOutput : Str) : Nat :=
  let subjects := jsTrim logOutput
  if subjects = [] then 1
  else getNextFromSubjects (subjects.splitOn '\n')

/-- JavaScript values as produced by the YAML loader or `JSON.parse`:
null, booleans, numbers, strings, arrays and plain objects. -/
inductive Js where
  | null : Js
  | bool (b : Bool) : Js
  | num (n : Int) : Js
  | str (s : Str) : Js
  | arr (xs : List Js) : Js
  | obj (fields : List (Str × Js)) : Js

/-- Property lookup on a plain object (first binding wins). -/
def jsLookup (fields : List (Str × Js)) (key : Str) : Option Js :=
  match fields.find? (fun kv => kv.1 == key) with
  | some kv => some kv.2
  | none => none

/-- The segment walk of source `getNestedField`; `none` plays the role of
JavaScript `undefined`.  A `null` or non-object intermediate value (including
an array, which has no named fields of interest here) yields `undefined`. -/
def getNestedFieldGo : Option Js → List Str → Option Js
  | cur, [] => cur
  | none, _ :: _ => none
  | some cur, seg :: rest =>
      match cur with
      | .obj fields => getNestedFieldGo (jsLookup fields seg) rest
      | _ => none

/-- Source `getNestedField`: walk a dotted field path through nested maps. -/
def getNestedField (data : List (Str × Js)) (fieldPath : String) : Option Js :=
  getNestedFieldGo (some (.obj data))
    (((s2l fieldPath).splitOn '.').filter (fun seg => seg ≠ []))

/-- Source `resolveString`: trim a string value, treating a non-string or a
blank result as absent. -/
def resolveString : Option Js → Option Str
  | some (.str v) => let t := jsTrim v; if t = [] then none else some t
  | _ => none

/-- Source `firstString`: first field path that resolves to a usable string. -/
def firstString (data : List (Str × Js)) : List String → Option Str
  | [] => none
  | p :: rest =>
      match resolveString (getNestedField data p) with
      | some t => some t
      | none => firstString data rest

/-- Source `uniquePaths`: drop blank entries and duplicates, keeping order. -/
def uniquePathsGo (seen : List String) : List String → List String
  | [] => []
  | v :: rest =>
      if jsTrim (s2l v) = [] then uniquePathsGo seen rest
      else if v ∈ seen then uniquePathsGo seen rest
      else v :: uniquePathsGo (v :: seen) rest

/-- Source `uniquePaths`. -/
def uniquePaths (paths : List String) : List String :=
  uniquePathsGo [] paths

/-- Characters left unescaped by JavaScript `encodeURIComponent`:
letters, digits, and `- _ . ! ~ * ( )` together with the apostrophe (39). -/
def isUriUnreserved (c : Char) : Bool :=
  ('A' ≤ c && c ≤ 'Z') || ('a' ≤ c && c ≤ 'z') || ('0' ≤ c && c ≤ '9') ||
  c == '-' || c == '_' || c == '.' || c == '!' || c == '~' || c == '*' ||
  c == '(' || c == ')' || c.toNat == 39

/-- Uppercase hexadecimal digit. -/
def hexDigit (n : Nat) : Char :=
  if n < 10 then Char.ofNat (48 + n) else Char.ofNat (55 + n)

/-- UTF-8 bytes of a code point. -/
def utf8Bytes (c : Char) : List Nat :=
  let n := c.toNat
  if n < 128 then [n]
  else if n < 2048 then [192 + n / 64, 128 + n % 64]
  else if n < 65536 then [224 + n / 4096, 128 + (n / 64) % 64, 128 + n % 64]
  else [240 + n / 262144, 128 + (n / 4096) % 64, 128 + (n / 64) % 64,
    128 + n % 64]

/-- Model of JavaScript `encodeURIComponent`. -/
def encodeURIComponent (s : Str) : Str :=
  s.flatMap (fun c =>
    if isUriUnreserved c then [c]
    else (utf8Bytes c).flatMap
      (fun b => ['%', hexDigit (b / 16), hexDigit (b % 16)]))

/-- Strip leading and trailing runs of `/` (regex `^\/+|\/+$` with `g`). -/
def stripSlashes (s : Str) : Str :=
  ((s.dropWhile (fun c => c = '/')).reverse.dropWhile (fun c => c = '/')).reverse

/-- Source `normalizePostsRoot`: `"."` becomes empty; otherwise strip one
leading `./`-run and any trailing slashes. -/
def normalizePostsRoot (postsRootSpec : Str) : Str :=
  if postsRootSpec = s2l "." then []
  else
    let afterDot :=
      match postsRootSpec with
      | '.' :: rest =>
          if rest.head? = some '/' then rest.dropWhile (fun c => c = '/')
          else postsRootSpec
      | _ => postsRootSpec
    (afterDot.reverse.dropWhile (fun c => c = '/')).reverse

/-- Remove the first occurrence of a literal pattern (JavaScript
`String.prototype.replace` with a string pattern and empty replacement). -/
def replaceFirstDrop (pat : Str) : Str → Str
  | [] => []
  | c :: cs =>
      match dropPre pat (c :: cs) with
      | some rest => rest
      | none => c :: replaceFirstDrop pat cs

/-- Case-insensitive strip of a trailing literal (regex `/pat$/i` replace). -/
def stripSuffixCI (s pat : Str) : Str :=
  let n := pat.length
  if n ≤ s.length ∧
      ((s.drop (s.length - n)).map Char.toLower = pat.map Char.toLower) then
    s.take (s.length - n)
  else s

/-- Join path pieces with `/` after percent-encoding the nonempty ones. -/
def encodeSegments (s : Str) : Str :=
  List.intercalate (s2l "/")
    (((s.splitOn '/').filter (fun seg => seg ≠ [])).map encodeURIComponent)

/-- Source `backlinkFromPostPath`. -/
def backlinkFromPostPath (baseUrl postsRootSpec postPath : Str) : Str :=
  let normalizedBaseUrl := trimTrailingSlash baseUrl
  let postsRoot := normalizePostsRoot postsRootSpec
  let postRelativePath :=
    if postsRoot = [] then postPath
    else replaceFirstDrop (postsRoot ++ s2l "/") postPath
  let pathWithoutExtension :=
    stripSuffixCI (stripSuffixCI postRelativePath (s2l ".markdown")) (s2l ".md")
  let canonicalPath :=
    if decide (s2l "/index" <:+ pathWithoutExtension) then
      pathWithoutExtension.take (pathWithoutExtension.length - 6)
    else pathWithoutExtension
  let encodedPath := encodeSegments canonicalPath
  if encodedPath = [] then normalizedBaseUrl
  else normalizedBaseUrl ++ s2l "/" ++ encodedPath

/-- The resolved configuration record (source `ResolvedConfig`). -/
structure ResolvedConfig where
  handle : Str
  pdsUrl : Str
  postsDir : Str
  passwordEnvVar : Str
  postTextField : String
  baseUrl : Str

/-- Parameters of source `resolveBacklinkUrl`. -/
structure BacklinkParams where
  postPath : Str
  postsRootSpec : Str
  frontmatter : List (Str × Js)
  config : ResolvedConfig

/-- Source `resolveBacklinkUrl`.  The source's nullable return type is
modelled as `Option Str`. -/
def resolveBacklinkUrl (p : BacklinkParams) : Option Str :=
  match firstString p.frontmatter (uniquePaths ["slug", "bluesky.slug"]) with
  | none =>
      some (backlinkFromPostPath p.config.baseUrl p.postsRootSpec p.postPath)
  | some slug =>
      let baseUrl := trimTrailingSlash p.config.baseUrl
      let normalizedSlug := stripSlashes (jsTrim slug)
      if normalizedSlug = [] then some baseUrl
      else some (baseUrl ++ s2l "/" ++ encodeSegments normalizedSlug)

/-- Claim C5's slug pipeline, written from the spec's words: trim the slug,
strip leading/trailing slashes, and if nothing remains return the bare
(trailing-slash-trimmed) base URL, else percent-encode each nonempty
`/`-separated segment and join onto the base URL. -/
def slugBacklinkClaim (baseUrl slug : Str) : Str :=
  let base := trimTrailingSlash baseUrl
  let cleaned := stripSlashes (jsTrim slug)
  if cleaned = [] then base
  else base ++ s2l "/" ++ encodeSegments cleaned

/-- ASCII letter test (the `[a-z]` class of the scheme regex with flag `i`). -/
def isAsciiLetter (c : Char) : Bool :=
  ('a' ≤ c && c ≤ 'z') || ('A' ≤ c && c ≤ 'Z')

/-- Boolean literal starts-with test. -/
def startsWithLit (pre s : Str) : Bool :=
  (dropPre pre s).isSome

/-- Test of the source regex `^[a-z]+:\/\//i`: one or more ASCII letters
followed by `://` at the start. -/
def hasUrlScheme (s : Str) : Bool :=
  let letters := s.takeWhile isAsciiLetter
  letters ≠ [] && startsWithLit (s2l "://") (s.drop letters.length)

/-- Replace every backslash by a forward slash. -/
def backslashToSlash (s : Str) : Str :=
  s.map (fun c => if c = '\\' then '/' else c)

/-- The segment loop of Node `path.posix.normalize`: drop empty and `.`
segments; on `..` pop the last kept segment unless it is itself `..` or
nothing is kept, in which case keep the `..` exactly when segments may move
above the root (relative paths). -/
def normSegsGo (allowAboveRoot : Bool) (acc : List Str) : List Str → List Str
  | [] => acc
  | seg :: rest =>
      if seg = [] ∨ seg = s2l "." then normSegsGo allowAboveRoot acc rest
      else if seg = s2l ".." then
        if acc ≠ [] ∧ acc.getLast? ≠ some (s2l "..") then
          normSegsGo allowAboveRoot acc.dropLast rest
        else if allowAboveRoot then
          normSegsGo allowAboveRoot (acc ++ [s2l ".."]) rest
        else normSegsGo allowAboveRoot acc rest
      else normSegsGo allowAboveRoot (acc ++ [seg]) rest

/-- Node `normalizeString`: segment-normalize and rejoin with `/`. -/
def posixNormalizeCore (allowAboveRoot : Bool) (p : Str) : Str :=
  List.intercalate (s2l "/") (normSegsGo allowAboveRoot [] (p.splitOn '/'))

/-- Model of Node `path.posix.normalize`. -/
def posixNormalize (p : Str) : Str :=
  if p = [] then s2l "."
  else
    let isAbs := p.head? = some '/'
    let trailingSep := p.getLast? = some '/'
    let core := posixNormalizeCore (decide ¬isAbs) p
    if core = [] then
      if isAbs then s2l "/"
      else if trailingSep then s2l "./" else s2l "."
    else
      let core2 := if trailingSep then core ++ s2l "/" else core
      if isAbs then '/' :: core2 else core2

/-- Model of Node `path.posix.join` on two parts. -/
def posixJoin (a b : Str) : Str :=
  if a = [] ∧ b = [] then s2l "."
  else posixNormalize
    (if a = [] then b else if b = [] then a else a ++ s2l "/" ++ b)

/-- Model of Node `path.posix.dirname`. -/
def posixDirname (p : Str) : Str :=
  match p with
  | [] => s2l "."
  | c0 :: rest =>
      let hasRoot := c0 = '/'
      let r2 := ((rest.reverse.dropWhile (fun c => c = '/')).dropWhile
        (fun c => c ≠ '/'))
      match r2 with
      | [] => if hasRoot then s2l "/" else s2l "."
      | _ :: before =>
          if hasRoot ∧ before = [] then s2l "//"
          else c0 :: before.reverse

/-- The `resolvedPath` binding of source `resolveGitRelativePath`: an
absolute reference (leading `/`) is resolved against the repository root,
a relative one against the post's directory. -/
def resolvedAssetPath (postPath assetPath : Str) : Str :=
  let normalizedInput := backslashToSlash assetPath
  if normalizedInput.head? = some '/' then
    posixNormalize (normalizedInput.drop 1)
  else
    posixNormalize (posixJoin (posixDirname postPath) normalizedInput)

/-- Source `resolveGitRelativePath`: reject URL-scheme or `data:` asset
references; resolve absolute references against the repo root and relative
ones against the post's directory; reject normalized paths escaping the
repository root (and the degenerate empty and `.` results). -/
def resolveGitRelativePath (postPath assetPath : Str) : Except Str Str :=
  let normalizedInput := backslashToSlash assetPath
  if hasUrlScheme normalizedInput || startsWithLit (s2l "data:") normalizedInput then
    .error (s2l "Only repository file paths are supported for images. Received "
      ++ assetPath)
  else
    let resolvedPath := resolvedAssetPath postPath assetPath
    if resolvedPath = [] ∨ resolvedPath = s2l "." ∨
        startsWithLit (s2l "../") resolvedPath = true ∨ resolvedPath = s2l ".." then
      .error (s2l "Asset path resolves outside repo root: " ++ assetPath)
    else .ok resolvedPath

/-- Claim C4's notion of a normalized relative path lying outside the
repository root: it is `..` or begins with a `../` segment. -/
def pathEscapesRepoRoot (r : Str) : Bool :=
  r == s2l ".." || startsWithLit (s2l "../") r

/-- Claim C6's path pipeline (as amended): given the post path relative to
the posts root, strip a trailing `.markdown` and then a trailing `.md`
(case-insensitively, so both are removed from a name ending `.md.markdown`),
collapse a trailing `/index` segment, percent-encode each remaining nonempty
segment, and join onto the trailed base URL (bare base URL when empty). -/
def pathBacklinkClaim (baseUrl rel : Str) : Str :=
  let base := trimTrailingSlash baseUrl
  let noExt := stripSuffixCI (stripSuffixCI rel (s2l ".markdown")) (s2l ".md")
  let canonical :=
    if decide (s2l "/index" <:+ noExt) then noExt.take (noExt.length - 6)
    else noExt
  let encoded := encodeSegments canonical
  if encoded = [] then base else base ++ s2l "/" ++ encoded

/-- The YAML loader (`js-yaml`'s `load`), an external collaborator passed in
as a parameter: it either throws (with a message) or returns a value. -/
abbrev YamlLoad := Str → Except Str Js

/-- Model of JavaScript `split(/\r?\n/)`: split on `\n`, dropping one
carriage return at the end of each piece. -/
def jsSplitLines (s : Str) : List Str :=
  (s.splitOn '\n').map (fun l => if l.getLast? = some '\r' then l.dropLast else l)

/-- Line index of the first closing `---` delimiter at index 1 or later. -/
def findClosingDelim (lines : List Str) : Option Nat :=
  ((lines.drop 1).findIdx? (fun l => jsTrim l == s2l "---")).map (fun i => i + 1)

/-- Source `parseYamlFrontmatter`: `null`/absent parses to an empty map, a
non-object result is an error, and loader errors are wrapped. -/
def parseYamlFrontmatter (load : YamlLoad) (yamlText : Str) :
    Except Str (List (Str × Js)) :=
  match load yamlText with
  | .error m => .error (s2l "Invalid YAML frontmatter: " ++ m)
  | .ok .null => .ok []
  | .ok (.obj fields) => .ok fields
  | .ok _ =>
      .error (s2l "Invalid YAML frontmatter: frontmatter must be an object")

/-- Result of source `splitFrontmatter`. -/
structure SplitResult where
  frontmatter : List (Str × Js)
  content : Str

/-- Source `splitFrontmatter`: if the document opens with a `---` line and a
closing `---` line exists, parse the lines in between as YAML and return the
rest as content; otherwise the frontmatter is empty and the content is the
whole document. -/
def splitFrontmatter (load : YamlLoad) (markdown : Str) :
    Except Str SplitResult :=
  let lines := jsSplitLines markdown
  if ¬ (lines.head?.map jsTrim = some (s2l "---")) then .ok ⟨[], markdown⟩
  else
    match findClosingDelim lines with
    | none => .ok ⟨[], markdown⟩
    | some ci =>
        let frontmatterText := List.intercalate (s2l "\n") ((lines.take ci).drop 1)
        let content := List.intercalate (s2l "\n") (lines.drop (ci + 1))
        (parseYamlFrontmatter load frontmatterText).map (fun fm => ⟨fm, content⟩)

/-- Source `MarkdownImageReference`. -/
structure MarkdownImageReference where
  alt : Str
  path : Str

/-- Attempt of the regex `!\[([^\]]*)\]\(([^)\n]+)\)` at the current
position, returning the two capture groups and the text after the match. -/
def tryImageAt : Str → Option (Str × Str × Str)
  | '!' :: '[' :: rest =>
      let alt := rest.takeWhile (fun c => c != ']')
      match rest.dropWhile (fun c => c != ']') with
      | ']' :: '(' :: rest2 =>
          let tgt := rest2.takeWhile (fun c => c != ')' && c != '\n')
          if tgt = [] then none
          else
            match rest2.dropWhile (fun c => c != ')' && c != '\n') with
            | ')' :: rest3 => some (alt, tgt, rest3)
            | _ => none
      | _ => none
  | _ => none

/-- Leftmost match of the image regex: the text before the match, the two
capture groups, and the text after the match. -/
def findImageFrom : Str → Option (Str × Str × Str × Str)
  | [] => none
  | c :: cs =>
      match tryImageAt (c :: cs) with
      | some (alt, tgt, rest) => some ([], alt, tgt, rest)
      | none =>
          match findImageFrom cs with
          | some (pre, alt, tgt, rest) => some (c :: pre, alt, tgt, rest)
          | none => none

/-- Source `parseMarkdownImagePath`: unwrap `<...>` targets, else take the
first whitespace-separated token. -/
def parseMarkdownImagePath (target : Str) : Option Str :=
  if target = [] then none
  else if target.head? = some '<' then
    match target.findIdx? (fun c => c == '>') with
    | none => none
    | some closing =>
        if closing ≤ 1 then none
        else some (jsTrim ((target.drop 1).take (closing - 1)))
  else
    let firstToken := target.takeWhile (fun c => !jsIsSpace c)
    if firstToken = [] then none else some (jsTrim firstToken)

/-- Source `findFirstMarkdownImage`. -/
def findFirstMarkdownImage (content : Str) : Option MarkdownImageReference :=
  match findImageFrom content with
  | none => none
  | some (_, alt, target, _) =>
      match parseMarkdownImagePath (jsTrim target) with
      | none => none
      | some path => some ⟨jsTrim alt, path⟩

/-- Global image-markup removal (regex replace with empty string).  The fuel
argument only bounds the recursion; every step consumes at least one
character, so `s.length` fuel always suffices. -/
def stripImagesGo : Nat → Str → Str
  | 0, s => s
  | fuel + 1, s =>
      match s with
      | [] => []
      | c :: cs =>
          match tryImageAt (c :: cs) with
          | some (_, _, rest) => stripImagesGo fuel rest
          | none => c :: stripImagesGo fuel cs

/-- Source `stripMarkdownImages`: drop every image reference, then trim. -/
def stripMarkdownImages (content : Str) : Str :=
  jsTrim (stripImagesGo content.length content)

/-- Source `ParsedPostFields`. -/
structure ParsedPostFields where
  text : Str
  imagePath : Option Str
  imageAlt : Str

/-- Options record consumed by source `parsePostFields`. -/
structure PostFieldOptions where
  postTextField : String

/-- The post text chosen by source `parsePostFields`: the first usable
frontmatter field among the configured name and the fixed fallbacks, else
the body with image markup stripped and trimmed. -/
def chosenPostText (sp : SplitResult) (options : PostFieldOptions) : Str :=
  (firstString sp.frontmatter
    (uniquePaths [options.postTextField, "bluesky.text", "text", "post"])).getD
    (jsTrim (stripMarkdownImages sp.content))

/-- Source `parsePostFields`. -/
def parsePostFields (load : YamlLoad) (markdown : Str)
    (options : PostFieldOptions) : Except Str ParsedPostFields :=
  match splitFrontmatter load markdown with
  | .error e => .error e
  | .ok parsed =>
      let firstImage := findFirstMarkdownImage parsed.content
      let text := chosenPostText parsed options
      if jsTrim text = [] then
        .error (s2l "Missing post text. Set a frontmatter field (default \"post\") or markdown content.")
      else if 300 < text.length then
        .error (s2l "Post text must be 300 characters or fewer. Received "
          ++ Nat.toDigits 10 text.length ++ s2l ".")
      else
        .ok ⟨text, firstImage.map (fun i => i.path),
          (firstImage.map (fun i => i.alt)).getD []⟩

/-- Source `assertPostLength`: re-check the 300-unit cap after the backlink
was appended. -/
def assertPostLength (text postPath : Str) : Except Str Unit :=
  if 300 < text.length then
    .error (s2l "Post text must be 300 chars or fewer after adding backlink. Post "
      ++ postPath ++ s2l " is " ++ Nat.toDigits 10 text.length ++ s2l ".")
  else .ok ()

/-- The claim's unit of measure, written from the spec's words: the number
of grapheme units (user-perceived characters) of a text.  The source
contains no grapheme segmentation — it counts code points via
`Array.from` — so this definition implements the one Unicode segmentation
rule needed by the inputs below: a combining diacritical mark
(U+0300-U+036F) extends the preceding grapheme instead of starting one. -/
def graphemeCount (s : Str) : Nat :=
  (s.filter (fun c => !(768 ≤ c.toNat && c.toNat ≤ 879))).length

/-- An HTTP response as seen through the fetch API: status code, status
text, and the body text.  `ok` is derived as in fetch (status in 200-299). -/
structure HttpResponse where
  status : Nat
  statusText : Str
  bodyText : Str

/-- The fetch `Response.ok` flag: status in the 2xx range. -/
def responseOk (r : HttpResponse) : Bool :=
  decide (200 ≤ r.status) && decide (r.status < 300)

/-- Source `extractApiError`: the payload's `message` string, else its
`error` string, else nothing (non-objects carry neither). -/
def extractApiError (payload : Js) : Option Str :=
  match payload with
  | .obj fields =>
      match resolveString (jsLookup fields (s2l "message")) with
      | some m => some m
      | none => resolveString (jsLookup fields (s2l "error"))
  | _ => none

/-- The non-2xx error message built by source `parseJsonResponse`. -/
def apiErrorMsg (context : Str) (response : HttpResponse) (parsed : Js) : Str :=
  s2l "Bluesky API error (" ++ context ++ s2l ") [" ++
    Nat.toDigits 10 response.status ++ s2l "]: " ++
    ((extractApiError parsed).getD response.statusText)

/-- The part of source `parseJsonResponse` after the body was parsed. -/
def afterBodyParse (response : HttpResponse) (context : Str) (parsed : Js) :
    Except Str Js :=
  if responseOk response = false then
    .error (apiErrorMsg context response parsed)
  else
    match parsed with
    | .obj _ => .ok parsed
    | .arr xs => .ok (.arr xs)
    | _ => .error (s2l "Expected JSON object for " ++ context)

/-- Source `parseJsonResponse`, with `JSON.parse` passed in as a parameter:
a blank body stands for an empty object; an unparseable body fails before
the status is examined; a non-2xx status fails with the extracted message. -/
def parseJsonResponse (jsonParse : Str → Except Str Js)
    (response : HttpResponse) (context : Str) : Except Str Js :=
  if jsTrim response.bodyText = [] then
    afterBodyParse response context (Js.obj [])
  else
    match jsonParse response.bodyText with
    | .error m =>
        .error (s2l "Could not parse JSON for " ++ context ++ s2l ": " ++ m)
    | .ok parsed => afterBodyParse response context parsed

/-- The image attached to a draft (source `DraftPost.image`); the blob
bytes are opaque to the engine and modelled as text. -/
structure DraftImage where
  path : Str
  alt : Str
  mimeType : Str
  bytes : Str

/-- Source `DraftPost`. -/
structure DraftPost where
  path : Str
  text : Str
  image : Option DraftImage

/-- The supported image extensions and their MIME types. -/
def imageMimeByExtension : List (Str × Str) :=
  [(s2l ".jpg", s2l "image/jpeg"), (s2l ".jpeg", s2l "image/jpeg"),
   (s2l ".png", s2l "image/png"), (s2l ".gif", s2l "image/gif"),
   (s2l ".webp", s2l "image/webp"), (s2l ".avif", s2l "image/avif")]

/-- Model of Node `path.extname`: the extension of the final path
component, empty for dotfiles and for a bare `..` component. -/
def extnameOf (p : Str) : Str :=
  let baseRev := (p.reverse.dropWhile (fun c => c = '/')).takeWhile
    (fun c => c ≠ '/')
  let afterDotRev := baseRev.takeWhile (fun c => c ≠ '.')
  if afterDotRev.length = baseRev.length then []
  else
    let left := baseRev.drop (afterDotRev.length + 1)
    if left = [] then []
    else if left = ['.'] ∧ afterDotRev = [] then []
    else '.' :: afterDotRev.reverse

/-- Source `detectImageMimeType`. -/
def detectImageMimeType (filePath : Str) : Except Str Str :=
  let extension := (extnameOf filePath).map Char.toLower
  match imageMimeByExtension.find? (fun kv => kv.1 == extension) with
  | some kv => .ok kv.2
  | none => .error (s2l "Unsupported image type for " ++ filePath)

/-- The per-post loop of source `buildDrafts`.  `repo` maps a repo-relative
path to the file content at HEAD (`git show HEAD:path`); a missing path is
the subprocess failure.  A post whose frontmatter already carries `AT_URL`
is skipped before any further validation. -/
def buildDraftsGo (load : YamlLoad) (repo : Str → Option Str)
    (config : ResolvedConfig) (postsRootSpec : Str) :
    List Str → Except Str (List DraftPost)
  | [] => .ok []
  | postPath :: rest =>
      match repo postPath with
      | none => .error (s2l "git show failed: " ++ postPath)
      | some markdown =>
          match splitFrontmatter load markdown with
          | .error e => .error e
          | .ok sp =>
              match getNestedField sp.frontmatter "AT_URL" with
              | some _ => buildDraftsGo load repo config postsRootSpec rest
              | none =>
                  match parsePostFields load markdown ⟨config.postTextField⟩ with
                  | .error e => .error e
                  | .ok parsed =>
                      match resolveBacklinkUrl
                          ⟨postPath, postsRootSpec, sp.frontmatter, config⟩ with
                      | none =>
                          .error (s2l "Could not resolve backlink URL for "
                            ++ postPath)
                      | some backlinkUrl =>
                          let text := appendBacklink parsed.text backlinkUrl
                          match assertPostLength text postPath with
                          | .error e => .error e
                          | .ok _ =>
                              match parsed.imagePath with
                              | none =>
                                  (buildDraftsGo load repo config postsRootSpec
                                    rest).map
                                    (fun drafts => ⟨postPath, text, none⟩ :: drafts)
                              | some imagePath =>
                                  match resolveGitRelativePath postPath imagePath with
                                  | .error e => .error e
                                  | .ok imageRepoPath =>
                                      match repo imageRepoPath with
                                      | none =>
                                          .error (s2l "git show failed: "
                                            ++ imageRepoPath)
                                      | some bytes =>
                                          match detectImageMimeType imageRepoPath with
                                          | .error e => .error e
                                          | .ok mime =>
                                              (buildDraftsGo load repo config
                                                postsRootSpec rest).map
                                                (fun drafts =>
                                                  ⟨postPath, text,
                                                    some ⟨imageRepoPath,
                                                      parsed.imageAlt, mime,
                                                      bytes⟩⟩ :: drafts)

/-- Source `buildDrafts`. -/
def buildDrafts (load : YamlLoad) (repo : Str → Option Str)
    (config : ResolvedConfig) (postsRootSpec : Str) (postPaths : List Str) :
    Except Str (List DraftPost) :=
  buildDraftsGo load repo config postsRootSpec postPaths

/-- Lowercase hexadecimal digit. -/
def lowHexDigit (n : Nat) : Char :=
  if n < 10 then Char.ofNat (48 + n) else Char.ofNat (87 + n)

/-- Escape of one character under `JSON.stringify` for string values. -/
def jsonEscapeChar (c : Char) : Str :=
  if c = '"' then ['\\', '"']
  else if c = '\\' then ['\\', '\\']
  else if c = '\n' then ['\\', 'n']
  else if c = '\r' then ['\\', 'r']
  else if c = '\t' then ['\\', 't']
  else if c.toNat = 8 then ['\\', 'b']
  else if c.toNat = 12 then ['\\', 'f']
  else if c.toNat < 32 then
    ['\\', 'u', '0', '0', lowHexDigit (c.toNat / 16), lowHexDigit (c.toNat % 16)]
  else [c]

/-- Model of `JSON.stringify` on a string value. -/
def jsonStringify (s : Str) : Str :=
  '"' :: s.flatMap jsonEscapeChar ++ ['"']

/-- The line written by source `upsertFrontmatterField`:
`field: <JSON-quoted value>`. -/
def renderedFieldLine (field value : Str) : Str :=
  field ++ s2l ": " ++ jsonStringify value

/-- Test of the source pattern `^<field>\s*:` (the field name is
regex-escaped in the source, so it matches literally). -/
def fieldMatch (field : Str) (line : Str) : Bool :=
  match dropPre field line with
  | none => false
  | some rest => (rest.dropWhile jsIsSpace).head? == some ':'

/-- JavaScript `join("\n")`. -/
def joinLines : List Str → Str
  | [] => []
  | [l] => l
  | l :: rest => l ++ '\n' :: joinLines rest

/-- Source `finalizeNewline`: force the output to share the input's
trailing-newline convention. -/
def finalizeNewline (text : Str) (hasTrailingNewline : Bool) : Str :=
  if hasTrailingNewline then
    if text.getLast? = some '\n' then text else text ++ s2l "\n"
  else
    if text.getLast? = some '\n' then text.dropLast else text

/-- The frontmatter-block branch of source `upsertFrontmatterField`:
when the document opens with `---` and a closing `---` exists, replace the
first line matching the field pattern inside the block, or insert the
rendered line just before the closing delimiter; `none` means the source
falls through to synthesizing a new block. -/
def upsertLines (field rendered : Str) (lines : List Str) :
    Option (List Str) :=
  if lines.head?.map jsTrim = some (s2l "---") then
    match findClosingDelim lines with
    | some closingIndex =>
        some (match ((lines.take closingIndex).drop 1).findIdx?
            (fieldMatch field) with
          | some j => lines.set (j + 1) rendered
          | none => lines.insertIdx closingIndex rendered)
    | none => none
  else none

/-- Source `upsertFrontmatterField`. -/
def upsertFrontmatterField (markdown field value : Str) : Str :=
  let lines := jsSplitLines markdown
  let renderedField := renderedFieldLine field value
  let hasTrailingNewline := markdown.getLast? == some '\n'
  match upsertLines field renderedField lines with
  | some newLines =>
      finalizeNewline (joinLines newLines) hasTrailingNewline
  | none =>
      finalizeNewline
        (joinLines [s2l "---", renderedField, s2l "---", markdown])
        hasTrailingNewline

/-- The number of lines matching the field pattern inside the document's
frontmatter block (zero when no block exists) — the claim's notion of how
often the field's key line occurs. -/
def fieldLineCount (markdown field : Str) : Nat :=
  let lines := jsSplitLines markdown
  if lines.head?.map jsTrim = some (s2l "---") then
    match findClosingDelim lines with
    | some ci => ((lines.take ci).drop 1).countP (fieldMatch field)
    | none => 0
  else 0

end Noat

namespace Noat

/-- C8: `appendBacklink` is idempotent, and it appends the URL with a
blank-line separator exactly when the text does not already contain it. -/
theorem appendBacklink_idempotent (t u : Str) :
    appendBacklink (appendBacklink t u) u = appendBacklink t u ∧
    (jsIncludes t u = false → appendBacklink t u = t ++ s2l "\n\n" ++ u) ∧
    (jsIncludes t u = true → appendBacklink t u = t) := by
  refine ⟨?_, ?_, ?_⟩
  · by_cases h : jsIncludes t u = true
    · simp [appendBacklink, h]
    · have h2 : jsIncludes (t ++ (s2l "\n\n" ++ u)) u = true := by
        have : u <:+: t ++ (s2l "\n\n" ++ u) := by
          have := (List.suffix_append (t ++ s2l "\n\n") u).isInfix
          simpa [List.append_assoc] using this
        simpa [jsIncludes] using this
      simp [appendBacklink, h, h2, List.append_assoc]
  · intro h
    simp [appendBacklink, h]
  · intro h
    simp [appendBacklink, h]

/-- Witness for `appendBacklink_idempotent` at concrete inputs. -/
theorem appendBacklink_idempotent_witness :
    appendBacklink (appendBacklink (s2l "hi") (s2l "https://a.b/c"))
        (s2l "https://a.b/c") =
      appendBacklink (s2l "hi") (s2l "https://a.b/c") ∧
    appendBacklink (s2l "hi") (s2l "https://a.b/c") =
      s2l "hi" ++ s2l "\n\n" ++ s2l "https://a.b/c" :=
  ⟨(appendBacklink_idempotent (s2l "hi") (s2l "https://a.b/c")).1,
   (appendBacklink_idempotent (s2l "hi") (s2l "https://a.b/c")).2.1 (by decide)⟩

/-- C3 counterexample: with prior subjects carrying counters 1, 2, 4 in that
history order (counter 1 most recent), the code returns 2, not the maximum
plus one (5). -/
theorem getNextPublishCommitNumber_not_max :
    getNextPublishCommitNumber
        (s2l "AT proto publish 1\nAT proto publish 2\nAT proto publish 4") = 2 ∧
    (2 : Nat) ≠ 5 := by
  constructor
  · decide
  · decide

/-- C3 (amended): the next publish number is the counter of the first
matching subject in history order (the most recent matching commit) plus
one, and is 1 when no subject of the history matches the publish pattern
(in particular for an empty history); with counters 4, 2, 1 listed
newest-first the result is 5. -/
theorem getNextPublishCommitNumber_first_match :
    (∀ (pre : List Str) (s : Str) (post : List Str) (n : Nat),
        (∀ l ∈ pre, publishSubjectNumber l = none) →
        publishSubjectNumber s = some n →
        getNextFromSubjects (pre ++ s :: post) = n + 1) ∧
    (∀ (subjects : List Str),
        (∀ l ∈ subjects, publishSubjectNumber l = none) →
        getNextFromSubjects subjects = 1) ∧
    (∀ (logOutput : Str),
        (∀ l ∈ (jsTrim logOutput).splitOn '\n', publishSubjectNumber l = none) →
        getNextPublishCommitNumber logOutput = 1) ∧
    getNextPublishCommitNumber
        (s2l "AT proto publish 4\nAT proto publish 2\nAT proto publish 1") = 5 := by
  have hnone : ∀ (subjects : List Str),
      (∀ l ∈ subjects, publishSubjectNumber l = none) →
      getNextFromSubjects subjects = 1 := by
    intro subjects hall
    induction subjects with
    | nil => rfl
    | cons a as ih =>
        have ha : publishSubjectNumber a = none := hall a (by simp)
        have has : ∀ l ∈ as, publishSubjectNumber l = none := by
          intro l hl; exact hall l (by simp [hl])
        simp [getNextFromSubjects, ha, ih has]
  refine ⟨?_, hnone, ?_, by decide⟩
  · intro pre s post n hpre hs
    induction pre with
    | nil => simp [getNextFromSubjects, hs]
    | cons a as ih =>
        have ha : publishSubjectNumber a = none := hpre a (by simp)
        have has : ∀ l ∈ as, publishSubjectNumber l = none := by
          intro l hl; exact hpre l (by simp [hl])
        simp [getNextFromSubjects, ha, ih has]
  · intro logOutput hall
    unfold getNextPublishCommitNumber
    by_cases he : jsTrim logOutput = []
    · rw [if_pos he]
    · rw [if_neg he]
      exact hnone _ hall

/-- Witness for `getNextPublishCommitNumber_first_match` at concrete
inputs: a matched counter is incremented, and a history with no matching
subject restarts at 1. -/
theorem getNextPublishCommitNumber_first_match_witness :
    getNextFromSubjects [s2l "chore: tidy", s2l "AT proto publish 7"] = 8 ∧
    getNextPublishCommitNumber (s2l "chore: tidy\ndocs: readme") = 1 :=
  ⟨(getNextPublishCommitNumber_first_match).1 [s2l "chore: tidy"]
    (s2l "AT proto publish 7") [] 7 (by decide) (by decide),
   (getNextPublishCommitNumber_first_match).2.2.1
    (s2l "chore: tidy\ndocs: readme") (by decide)⟩

/-- Stripping a list's own front from an appended list leaves the tail. -/
theorem dropPre_append (p s : Str) : dropPre p (p ++ s) = some s := by
  induction p with
  | nil => cases s <;> rfl
  | cons c cs ih => simp [dropPre, ih]

/-- Removing the first occurrence of a nonempty pattern that sits at the
front of the string leaves exactly the remainder. -/
theorem replaceFirstDrop_front (pat rest : Str) (h : pat ≠ []) :
    replaceFirstDrop pat (pat ++ rest) = rest := by
  match pat, h with
  | c :: cs, _ =>
      show replaceFirstDrop (c :: cs) (c :: (cs ++ rest)) = rest
      have hd : dropPre (c :: cs) (c :: (cs ++ rest)) = some rest := by
        simpa using dropPre_append (c :: cs) rest
      simp [replaceFirstDrop, hd]

/-- A list is a prefix of either branch of a base-or-extended conditional. -/
theorem prefix_of_base_ite (b x y : Str) (cond : Prop) [Decidable cond] :
    b <+: (if cond then b else b ++ x ++ y) := by
  split
  · exact List.prefix_rfl
  · have hxy : b ++ x ++ y = b ++ (x ++ y) := by simp [List.append_assoc]
    rw [hxy]
    exact List.prefix_append _ _

/-- The path-derived backlink always extends the trimmed base URL. -/
theorem backlinkFromPostPath_extends (baseUrl postsRootSpec postPath : Str) :
    trimTrailingSlash baseUrl <+: backlinkFromPostPath baseUrl postsRootSpec postPath := by
  simp only [backlinkFromPostPath]
  exact prefix_of_base_ite _ _ _ _

/-- C5 counterexample: a frontmatter slug consisting only of whitespace is
empty after trimming, but the code treats it as absent (`resolveString`
rejects blank strings) and derives the backlink from the post path instead
of returning the bare base URL the claim promises. -/
theorem resolveBacklinkUrl_blank_slug :
    resolveBacklinkUrl ⟨s2l "posts/x.md", s2l "posts",
        [(s2l "slug", Js.str (s2l "  "))],
        ⟨[], [], [], [], "post", s2l "https://abc.com/blog"⟩⟩ =
      some (s2l "https://abc.com/blog/x") ∧
    s2l "https://abc.com/blog/x" ≠ s2l "https://abc.com/blog" := by
  exact ⟨by decide, by decide⟩

/-- C5 (amended): when the frontmatter's slug resolves to a usable string
(non-blank after trimming), the backlink is the trimmed base URL joined to
the trimmed, slash-stripped, segment-encoded slug — bare base URL when only
slashes remain; a slug that is blank (empty or whitespace-only) is treated
as absent and the backlink is derived from the post path instead.  In
particular base `https://abc.com/blog` with slug `foo` gives
`https://abc.com/blog/foo`, and base `https://abc.com/blog/` with slug
`/weekly note/` gives `https://abc.com/blog/weekly%20note`. -/
theorem resolveBacklinkUrl_with_slug :
    (∀ (p : BacklinkParams) (s : Str),
        firstString p.frontmatter (uniquePaths ["slug", "bluesky.slug"]) = some s →
        resolveBacklinkUrl p = some (slugBacklinkClaim p.config.baseUrl s)) ∧
    (∀ (p : BacklinkParams),
        firstString p.frontmatter (uniquePaths ["slug", "bluesky.slug"]) = none →
        resolveBacklinkUrl p = some (backlinkFromPostPath p.config.baseUrl
          p.postsRootSpec p.postPath)) ∧
    resolveBacklinkUrl ⟨s2l "posts/2026-02-01-launch.md", s2l "posts",
        [(s2l "slug", Js.str (s2l "foo"))],
        ⟨[], [], [], [], "post", s2l "https://abc.com/blog"⟩⟩ =
      some (s2l "https://abc.com/blog/foo") ∧
    resolveBacklinkUrl ⟨s2l "posts/2026-02-01-launch.md", s2l "posts",
        [(s2l "slug", Js.str (s2l "/weekly note/"))],
        ⟨[], [], [], [], "post", s2l "https://abc.com/blog/"⟩⟩ =
      some (s2l "https://abc.com/blog/weekly%20note") := by
  refine ⟨?_, ?_, by decide, by decide⟩
  · intro p s h
    simp only [resolveBacklinkUrl, slugBacklinkClaim, h]
    split <;> rfl
  · intro p h
    simp [resolveBacklinkUrl, h]

/-- Witness for `resolveBacklinkUrl_with_slug` at concrete inputs. -/
theorem resolveBacklinkUrl_with_slug_witness :
    resolveBacklinkUrl ⟨s2l "p.md", s2l ".",
        [(s2l "slug", Js.str (s2l "note"))],
        ⟨[], [], [], [], "post", s2l "https://x.y"⟩⟩ =
      some (slugBacklinkClaim (s2l "https://x.y") (s2l "note")) :=
  (resolveBacklinkUrl_with_slug).1
    ⟨s2l "p.md", s2l ".", [(s2l "slug", Js.str (s2l "note"))],
      ⟨[], [], [], [], "post", s2l "https://x.y"⟩⟩
    (s2l "note") (by decide)

/-- C6 counterexample: for the slug-less post `posts/a.md.markdown` the code
strips the trailing `.markdown` and then also the remaining `.md`, yielding
`https://abc.com/blog/a` rather than the claim's `https://abc.com/blog/a.md`
(one trailing extension stripped). -/
theorem backlinkFromPostPath_double_strip :
    resolveBacklinkUrl ⟨s2l "posts/a.md.markdown", s2l "posts", [],
        ⟨[], [], [], [], "post", s2l "https://abc.com/blog"⟩⟩ =
      some (s2l "https://abc.com/blog/a") ∧
    s2l "https://abc.com/blog/a" ≠ s2l "https://abc.com/blog/a.md" := by
  exact ⟨by decide, by decide⟩

/-- C6 (amended): with no resolvable slug and the post path strictly under
the posts root, the backlink is the base URL joined with the relative path
after stripping a trailing `.markdown` and then a trailing `.md` (so a name
ending `.md.markdown` loses both), collapsing a trailing `/index`, and
percent-encoding each remaining nonempty segment; in particular post
`posts/2026-02-01-launch.md` under root `posts` with base
`https://abc.com/blog` yields `https://abc.com/blog/2026-02-01-launch`. -/
theorem resolveBacklinkUrl_no_slug :
    (∀ (p : BacklinkParams) (rest : Str),
        firstString p.frontmatter (uniquePaths ["slug", "bluesky.slug"]) = none →
        normalizePostsRoot p.postsRootSpec ≠ [] →
        p.postPath = normalizePostsRoot p.postsRootSpec ++ '/' :: rest →
        resolveBacklinkUrl p = some (pathBacklinkClaim p.config.baseUrl rest)) ∧
    resolveBacklinkUrl ⟨s2l "posts/2026-02-01-launch.md", s2l "posts", [],
        ⟨[], [], [], [], "post", s2l "https://abc.com/blog"⟩⟩ =
      some (s2l "https://abc.com/blog/2026-02-01-launch") := by
  refine ⟨?_, by decide⟩
  intro p rest h1 h3 h2
  have hpat : replaceFirstDrop (normalizePostsRoot p.postsRootSpec ++ s2l "/")
      p.postPath = rest := by
    rw [h2]
    have : normalizePostsRoot p.postsRootSpec ++ '/' :: rest =
        (normalizePostsRoot p.postsRootSpec ++ s2l "/") ++ rest := by
      simp [s2l]
    rw [this]
    exact replaceFirstDrop_front _ _ (by simp [s2l])
  simp [resolveBacklinkUrl, h1, backlinkFromPostPath, pathBacklinkClaim, h3, hpat]

/-- Witness for `resolveBacklinkUrl_no_slug` at concrete inputs. -/
theorem resolveBacklinkUrl_no_slug_witness :
    resolveBacklinkUrl ⟨s2l "posts/hello.md", s2l "posts", [],
        ⟨[], [], [], [], "post", s2l "https://x.y"⟩⟩ =
      some (pathBacklinkClaim (s2l "https://x.y") (s2l "hello.md")) :=
  (resolveBacklinkUrl_no_slug).1
    ⟨s2l "posts/hello.md", s2l "posts", [],
      ⟨[], [], [], [], "post", s2l "https://x.y"⟩⟩
    (s2l "hello.md") (by decide) (by decide) (by decide)

/-- C10: `resolveBacklinkUrl` always returns a URL (never the source's
`null`), and the URL starts with the trailing-slash-trimmed base URL, so the
"Could not resolve backlink URL" branch in `buildDrafts` is unreachable. -/
theorem resolveBacklinkUrl_total (p : BacklinkParams)
    (_hbase : p.config.baseUrl ≠ []) :
    ∃ s, resolveBacklinkUrl p = some s ∧
      trimTrailingSlash p.config.baseUrl <+: s := by
  cases hf : firstString p.frontmatter (uniquePaths ["slug", "bluesky.slug"]) with
  | none =>
      exact ⟨backlinkFromPostPath p.config.baseUrl p.postsRootSpec p.postPath,
        by simp [resolveBacklinkUrl, hf],
        backlinkFromPostPath_extends p.config.baseUrl p.postsRootSpec p.postPath⟩
  | some s =>
      by_cases hs : stripSlashes (jsTrim s) = []
      · exact ⟨trimTrailingSlash p.config.baseUrl,
          by simp [resolveBacklinkUrl, hf, hs], List.prefix_rfl⟩
      · refine ⟨trimTrailingSlash p.config.baseUrl ++ s2l "/" ++
          encodeSegments (stripSlashes (jsTrim s)),
          by simp [resolveBacklinkUrl, hf, hs], ?_⟩
        exact (List.prefix_append (trimTrailingSlash p.config.baseUrl)
          (s2l "/")).trans
          (List.prefix_append (trimTrailingSlash p.config.baseUrl ++ s2l "/")
            (encodeSegments (stripSlashes (jsTrim s))))

/-- C2 counterexample: a text of exactly 300 grapheme units — 300 copies
of `a` followed by a combining acute accent, two code points each — fails
the length validation, because the source counts code points
(`Array.from(text).length` is 600 here), refuting the claim's promise that
a text of 300 grapheme units succeeds. -/
theorem postLength_grapheme_mismatch :
    graphemeCount ((List.replicate 300 ['a', '́']).flatten) = 300 ∧
    ((List.replicate 300 ['a', '́']).flatten).length = 600 ∧
    ∃ e, assertPostLength ((List.replicate 300 ['a', '́']).flatten)
      (s2l "p.md") = .error e := by
  refine ⟨by decide, by decide, ⟨_, rfl⟩⟩

/-- C2 (amended): the outbound text is capped at 300 Unicode code points —
the unit the source's `Array.from(text).length` counts — both before the
backlink is appended (`parsePostFields`) and after (`assertPostLength`): a
301-code-point text fails with an error at either site, and a
300-code-point text passes both.  (A text of 300 grapheme units can fail
when graphemes span several code points.) -/
theorem postLength_300_cap :
    (∀ (load : YamlLoad) (markdown : Str) (options : PostFieldOptions)
        (sp : SplitResult),
        splitFrontmatter load markdown = .ok sp →
        ((chosenPostText sp options).length = 301 →
          ∃ e, parsePostFields load markdown options = .error e) ∧
        ((chosenPostText sp options).length = 300 →
          jsTrim (chosenPostText sp options) ≠ [] →
          ∃ r, parsePostFields load markdown options = .ok r ∧
            r.text = chosenPostText sp options)) ∧
    (∀ (text postPath : Str),
        (text.length = 301 → ∃ e, assertPostLength text postPath = .error e) ∧
        (text.length = 300 → assertPostLength text postPath = .ok ())) := by
  constructor
  · intro load markdown options sp hsp
    constructor
    · intro h301
      by_cases ht : jsTrim (chosenPostText sp options) = []
      · refine ⟨s2l "Missing post text. Set a frontmatter field (default \"post\") or markdown content.", ?_⟩
        simp [parsePostFields, hsp, ht]
      · refine ⟨s2l "Post text must be 300 characters or fewer. Received "
          ++ Nat.toDigits 10 (chosenPostText sp options).length ++ s2l ".", ?_⟩
        simp [parsePostFields, hsp, ht, h301]
    · intro h300 ht
      refine ⟨⟨chosenPostText sp options,
        (findFirstMarkdownImage sp.content).map (fun i => i.path),
        ((findFirstMarkdownImage sp.content).map (fun i => i.alt)).getD []⟩,
        ?_, rfl⟩
      simp [parsePostFields, hsp, ht, h300]
  · intro text postPath
    constructor
    · intro h301
      refine ⟨s2l "Post text must be 300 chars or fewer after adding backlink. Post "
        ++ postPath ++ s2l " is " ++ Nat.toDigits 10 text.length ++ s2l ".", ?_⟩
      simp [assertPostLength, h301]
    · intro h300
      simp [assertPostLength, h300]

/-- Witness for `postLength_300_cap`: a 300-unit frontmatter text passes,
and a 301-unit post-backlink text fails. -/
theorem postLength_300_cap_witness :
    (∃ r, parsePostFields
        (fun _ => .ok (.obj [(s2l "post", Js.str (List.replicate 300 'a'))]))
        (s2l "---\npost: x\n---\nbody") ⟨"post"⟩ = .ok r ∧
        r.text = chosenPostText
          ⟨[(s2l "post", Js.str (List.replicate 300 'a'))], s2l "body"⟩
          ⟨"post"⟩) ∧
    (∃ e, assertPostLength (List.replicate 301 'a') (s2l "p.md") = .error e) :=
  ⟨((postLength_300_cap).1
      (fun _ => .ok (.obj [(s2l "post", Js.str (List.replicate 300 'a'))]))
      (s2l "---\npost: x\n---\nbody") ⟨"post"⟩
      ⟨[(s2l "post", Js.str (List.replicate 300 'a'))], s2l "body"⟩
      rfl).2 (by decide) (by decide),
   ((postLength_300_cap).2 (List.replicate 301 'a') (s2l "p.md")).1 (by decide)⟩

/-- C1: a candidate post whose parsed frontmatter carries the `AT_URL`
marker field — with any value, including an empty string or null — is
dropped from the draft list before any text, length or image validation,
exactly as if it were not in the candidate list at all. -/
theorem buildDrafts_skips_marked (load : YamlLoad) (repo : Str → Option Str)
    (config : ResolvedConfig) (postsRootSpec : Str) (postPath : Str)
    (rest : List Str) (markdown : Str) (sp : SplitResult) (v : Js)
    (hrepo : repo postPath = some markdown)
    (hsp : splitFrontmatter load markdown = .ok sp)
    (hmark : getNestedField sp.frontmatter "AT_URL" = some v) :
    buildDrafts load repo config postsRootSpec (postPath :: rest) =
      buildDrafts load repo config postsRootSpec rest := by
  simp [buildDrafts, buildDraftsGo, hrepo, hsp, hmark]

/-- Witness for `buildDrafts_skips_marked`: a marked post with an oversized
body is skipped without tripping validation. -/
theorem buildDrafts_skips_marked_witness :
    buildDrafts (fun _ => .ok (.obj [(s2l "AT_URL", Js.str (s2l "x"))]))
        (fun p => if p == s2l "a.md"
          then some (s2l "---\nAT_URL: x\n---\nhello") else none)
        ⟨[], [], [], [], "post", s2l "https://x.y"⟩ (s2l ".")
        [s2l "a.md"] =
      buildDrafts (fun _ => .ok (.obj [(s2l "AT_URL", Js.str (s2l "x"))]))
        (fun p => if p == s2l "a.md"
          then some (s2l "---\nAT_URL: x\n---\nhello") else none)
        ⟨[], [], [], [], "post", s2l "https://x.y"⟩ (s2l ".")
        [] :=
  buildDrafts_skips_marked
    (fun _ => .ok (.obj [(s2l "AT_URL", Js.str (s2l "x"))]))
    (fun p => if p == s2l "a.md"
      then some (s2l "---\nAT_URL: x\n---\nhello") else none)
    ⟨[], [], [], [], "post", s2l "https://x.y"⟩ (s2l ".") (s2l "a.md") []
    (s2l "---\nAT_URL: x\n---\nhello")
    ⟨[(s2l "AT_URL", Js.str (s2l "x"))], s2l "hello"⟩ (Js.str (s2l "x"))
    (by decide) rfl rfl

/-- C9 counterexample: a non-2xx (500) response whose body is not parseable
JSON fails with the JSON-parse error, which carries neither the HTTP status
nor the body-extracted message the claim requires. -/
theorem parseJsonResponse_unparseable_drops_status :
    parseJsonResponse (fun _ => .error (s2l "Unexpected token"))
        ⟨500, s2l "Internal Server Error", s2l "not json"⟩
        (s2l "create session") =
      .error (s2l "Could not parse JSON for create session: Unexpected token") ∧
    jsIncludes
      (s2l "Could not parse JSON for create session: Unexpected token")
      (s2l "500") = false :=
  ⟨rfl, by decide⟩

/-- C9 (amended): for a non-2xx response whose body is blank or parseable
JSON, the failure carries the operation context, the HTTP status and the
message extracted from the body's `message` field, else its `error` field,
else the HTTP status text; a non-2xx response with a non-blank unparseable
body instead fails with a JSON-parse error carrying the context but not the
status. -/
theorem parseJsonResponse_non2xx :
    ∀ (jsonParse : Str → Except Str Js) (response : HttpResponse)
      (context : Str),
      responseOk response = false →
      (jsTrim response.bodyText = [] →
        parseJsonResponse jsonParse response context =
          .error (apiErrorMsg context response (Js.obj []))) ∧
      (∀ parsed, jsTrim response.bodyText ≠ [] →
        jsonParse response.bodyText = .ok parsed →
        parseJsonResponse jsonParse response context =
          .error (apiErrorMsg context response parsed)) ∧
      (∀ m, jsTrim response.bodyText ≠ [] →
        jsonParse response.bodyText = .error m →
        parseJsonResponse jsonParse response context =
          .error (s2l "Could not parse JSON for " ++ context ++ s2l ": " ++ m)) := by
  intro jsonParse response context hok
  refine ⟨?_, ?_, ?_⟩
  · intro hb
    simp [parseJsonResponse, afterBodyParse, hb, hok]
  · intro parsed hb hp
    simp [parseJsonResponse, afterBodyParse, hb, hp, hok]
  · intro m hb hp
    simp [parseJsonResponse, hb, hp]

/-- Witness for `parseJsonResponse_non2xx`: a 404 with a blank body fails
with the status text as message. -/
theorem parseJsonResponse_non2xx_witness :
    parseJsonResponse (fun _ => .ok Js.null)
        ⟨404, s2l "Not Found", s2l ""⟩ (s2l "create session") =
      .error (apiErrorMsg (s2l "create session")
        ⟨404, s2l "Not Found", s2l ""⟩ (Js.obj [])) :=
  (parseJsonResponse_non2xx (fun _ => .ok Js.null)
    ⟨404, s2l "Not Found", s2l ""⟩ (s2l "create session") (by decide)).1
    (by decide)

/-- C4 counterexample: the asset reference `foo/..` from the root-level
post `a.md` normalizes to `.` — the repository root itself, not a path
outside it — yet the code rejects it with the path-safety error instead of
returning the path, refuting the claim's "otherwise it returns the
normalized repo-relative path". -/
theorem resolveGitRelativePath_root_itself :
    resolvedAssetPath (s2l "a.md") (s2l "foo/..") = s2l "." ∧
    pathEscapesRepoRoot (s2l ".") = false ∧
    resolveGitRelativePath (s2l "a.md") (s2l "foo/..") =
      .error (s2l "Asset path resolves outside repo root: foo/..") := by
  exact ⟨by decide, by decide, rfl⟩

/-- C4 (amended): an asset reference naming a URL scheme or `data:` is
rejected; otherwise an absolute reference is resolved against the
repository root and a relative one against the post's directory, and the
normalized result is rejected exactly when it escapes the repository root
(`..` or a leading `../` segment) or degenerates to the empty path or `.`
(the root itself, rejected with the same path-safety error); any other
normalized repo-relative path is returned. -/
theorem resolveGitRelativePath_safety :
    (∀ postPath assetPath : Str,
        (hasUrlScheme (backslashToSlash assetPath) ||
          startsWithLit (s2l "data:") (backslashToSlash assetPath)) = true →
        resolveGitRelativePath postPath assetPath =
          .error (s2l "Only repository file paths are supported for images. Received "
            ++ assetPath)) ∧
    (∀ postPath assetPath : Str,
        (hasUrlScheme (backslashToSlash assetPath) ||
          startsWithLit (s2l "data:") (backslashToSlash assetPath)) = false →
        ((resolvedAssetPath postPath assetPath = [] ∨
          resolvedAssetPath postPath assetPath = s2l "." ∨
          pathEscapesRepoRoot (resolvedAssetPath postPath assetPath) = true) →
          resolveGitRelativePath postPath assetPath =
            .error (s2l "Asset path resolves outside repo root: " ++ assetPath)) ∧
        (resolvedAssetPath postPath assetPath ≠ [] →
          resolvedAssetPath postPath assetPath ≠ s2l "." →
          pathEscapesRepoRoot (resolvedAssetPath postPath assetPath) = false →
          resolveGitRelativePath postPath assetPath =
            .ok (resolvedAssetPath postPath assetPath))) := by
  constructor
  · intro postPath assetPath h
    simp [resolveGitRelativePath, h]
  · intro postPath assetPath h
    set r := resolvedAssetPath postPath assetPath with hr
    constructor
    · intro hbad
      rcases hbad with h1 | h1 | h1
      · simp [resolveGitRelativePath, h, ← hr, h1]
      · simp [resolveGitRelativePath, h, ← hr, h1]
      · have hsplit : (r == s2l "..") = true ∨
            startsWithLit (s2l "../") r = true := by
          simpa [pathEscapesRepoRoot] using h1
        rcases hsplit with h2 | h2
        · have h3 : r = s2l ".." := by simpa using h2
          simp [resolveGitRelativePath, h, ← hr, h3]
        · simp [resolveGitRelativePath, h, ← hr, h2]
    · intro hne hdot hesc
      have h1 : (r == s2l "..") = false ∧ startsWithLit (s2l "../") r = false := by
        simpa [pathEscapesRepoRoot] using hesc
      have h2 : r ≠ s2l ".." := by
        intro hcontra
        rw [hcontra] at h1
        simp at h1
      simp [resolveGitRelativePath, h, ← hr, hne, hdot, h2, h1.2]

/-- Witness for `resolveGitRelativePath_safety`: the traversal reference
`../../../secrets.png` from `example/posts/alpha.md` is rejected, and the
relative reference `./images/pic.png` resolves to
`example/posts/images/pic.png`. -/
theorem resolveGitRelativePath_safety_witness :
    resolveGitRelativePath (s2l "example/posts/alpha.md")
      (s2l "../../../secrets.png") =
      .error (s2l "Asset path resolves outside repo root: ../../../secrets.png") ∧
    resolveGitRelativePath (s2l "example/posts/alpha.md")
      (s2l "./images/pic.png") =
      .ok (resolvedAssetPath (s2l "example/posts/alpha.md")
        (s2l "./images/pic.png")) :=
  ⟨((resolveGitRelativePath_safety).2 (s2l "example/posts/alpha.md")
      (s2l "../../../secrets.png") (by decide)).1
      (Or.inr (Or.inr (by decide))),
   ((resolveGitRelativePath_safety).2 (s2l "example/posts/alpha.md")
      (s2l "./images/pic.png") (by decide)).2
      (by decide) (by decide) (by decide)⟩

section UpsertLemmas

variable {α : Type _}

/-- A scan that rejects a leading block and accepts the next element finds
that element's index. -/
theorem findIdx?_front (p : α → Bool) (A : List α) (x : α) (B : List α)
    (hA : ∀ a ∈ A, p a = false) (hx : p x = true) :
    List.findIdx? p (A ++ x :: B) = some A.length := by
  induction A with
  | nil => simp [List.findIdx?_cons, hx]
  | cons a as ih =>
      have ha : p a = false := hA a (by simp)
      have ih2 := ih (fun b hb => hA b (by simp [hb]))
      simp [List.findIdx?_cons, ha, List.findIdx?_succ, ih2]

/-- A successful scan splits the list into a rejected front, the found
element, and a tail. -/
theorem findIdx?_decomp (p : α → Bool) :
    ∀ (l : List α) (j : Nat), List.findIdx? p l = some j →
      ∃ A x B, l = A ++ x :: B ∧ A.length = j ∧
        (∀ a ∈ A, p a = false) ∧ p x = true := by
  intro l
  induction l with
  | nil => intro j h; simp [List.findIdx?] at h
  | cons a as ih =>
      intro j h
      rw [List.findIdx?_cons] at h
      by_cases ha : p a = true
      · rw [if_pos ha] at h
        obtain rfl : (0 : Nat) = j := by simpa using h
        exact ⟨[], a, as, rfl, rfl, by simp, ha⟩
      · have ha' : p a = false := by simpa using ha
        rw [if_neg ha, List.findIdx?_succ] at h
        obtain ⟨k, hk, rfl⟩ := Option.map_eq_some'.mp h
        obtain ⟨A, x, B, hl, hlen, hfa, hx⟩ := ih k hk
        refine ⟨a :: A, x, B, by simp [hl], by simp [hlen], ?_, hx⟩
        intro b hb
        rcases List.mem_cons.mp hb with rfl | hb
        · exact ha'
        · exact hfa b hb

/-- A failed scan rejects every element. -/
theorem findIdx?_none_all (p : α → Bool) :
    ∀ (l : List α), List.findIdx? p l = none → ∀ a ∈ l, p a = false := by
  intro l
  induction l with
  | nil => intro _ a ha; simp at ha
  | cons b bs ih =>
      intro h a ha
      rw [List.findIdx?_cons] at h
      by_cases hb : p b = true
      · rw [if_pos hb] at h; exact absurd h (by simp)
      · rw [if_neg hb, List.findIdx?_succ] at h
        have hbs : List.findIdx? p bs = none := by
          cases hx : List.findIdx? p bs with
          | none => rfl
          | some k => rw [hx] at h; exact absurd h (by simp)
        rcases List.mem_cons.mp ha with rfl | ha
        · simpa using hb
        · exact ih hbs a ha

/-- Setting an index inside the left part of an append stays left. -/
theorem set_append_left :
    ∀ (A : List α) (j : Nat), j < A.length → ∀ (r : α) (C : List α),
      (A ++ C).set j r = A.set j r ++ C := by
  intro A
  induction A with
  | nil => intro j h; simp at h
  | cons a as ih =>
      intro j hj r C
      cases j with
      | zero => simp
      | succ k =>
          have : k < as.length := by simpa using hj
          simp [List.set, ih k this r C]

/-- Setting exactly at the boundary of an append replaces the head of the
right part. -/
theorem set_at_append :
    ∀ (A : List α) (x : α) (B : List α) (r : α),
      (A ++ x :: B).set A.length r = A ++ r :: B := by
  intro A
  induction A with
  | nil => intro x B r; simp
  | cons a as ih => intro x B r; simp [List.set, ih]

/-- Lookup at the boundary of an append finds the head of the right part. -/
theorem getElem?_at_append :
    ∀ (A : List α) (x : α) (B : List α), (A ++ x :: B)[A.length]? = some x := by
  intro A
  induction A with
  | nil => intro x B; simp
  | cons a as ih => intro x B; simpa using ih x B

/-- Inserting at the boundary of an append puts the element between the
parts. -/
theorem insertIdx_at_append :
    ∀ (A : List α) (r : α) (C : List α),
      (A ++ C).insertIdx A.length r = A ++ r :: C := by
  intro A
  induction A with
  | nil => intro r C; simp
  | cons a as ih => intro r C; simp [List.insertIdx_succ_cons, ih]

/-- Writing the value already present leaves the list unchanged. -/
theorem set_same :
    ∀ (l : List α) (j : Nat) (a : α), l[j]? = some a → l.set j a = l := by
  intro l
  induction l with
  | nil => intro j a h; simp at h
  | cons b bs ih =>
      intro j a h
      cases j with
      | zero => simp_all
      | succ k =>
          simp only [List.getElem?_cons_succ] at h
          simp [List.set, ih k a h]

/-- Pointwise-identity maps leave a list unchanged. -/
theorem map_self (f : α → α) :
    ∀ (l : List α), (∀ x ∈ l, f x = x) → l.map f = l := by
  intro l
  induction l with
  | nil => intro _; rfl
  | cons a as ih =>
      intro h
      simp [h a (by simp), ih (fun x hx => h x (by simp [hx]))]

/-- Every element of every piece of `splitOnP` is an element of the source
and fails the separator predicate. -/
theorem splitOnP_sub (p : α → Bool) :
    ∀ (s : List α), ∀ l ∈ s.splitOnP p, ∀ x ∈ l, x ∈ s ∧ p x = false := by
  intro s
  induction s with
  | nil =>
      intro l hl x hx
      simp only [List.splitOnP_nil, List.mem_singleton] at hl
      subst hl; simp at hx
  | cons a as ih =>
      intro l hl x hx
      rw [List.splitOnP_cons] at hl
      by_cases ha : p a = true
      · rw [if_pos ha] at hl
        rcases List.mem_cons.mp hl with rfl | hl
        · simp at hx
        · obtain ⟨h1, h2⟩ := ih l hl x hx
          exact ⟨by simp [h1], h2⟩
      · have ha' : p a = false := by simpa using ha
        rw [if_neg ha] at hl
        cases hsp : as.splitOnP p with
        | nil => exact absurd hsp (List.splitOnP_ne_nil p as)
        | cons h t =>
            rw [hsp] at hl
            simp only [List.modifyHead] at hl
            rcases List.mem_cons.mp hl with rfl | hl
            · rcases List.mem_cons.mp hx with rfl | hx
              · exact ⟨by simp, ha'⟩
              · obtain ⟨h1, h2⟩ := ih h (by simp [hsp]) x hx
                exact ⟨by simp [h1], h2⟩
            · obtain ⟨h1, h2⟩ := ih l (by simp [hsp, hl]) x hx
              exact ⟨by simp [h1], h2⟩

end UpsertLemmas

/-- Joining the pieces of a newline split restores the string. -/
theorem joinLines_splitOn :
    ∀ (s : Str), joinLines (s.splitOn '\n') = s := by
  intro s
  induction s with
  | nil => rfl
  | cons c cs ih =>
      show joinLines ((c :: cs).splitOnP (· == '\n')) = c :: cs
      rw [List.splitOnP_cons]
      by_cases hc : c = '\n'
      · subst hc
        rw [if_pos (by simp)]
        cases hsp : cs.splitOnP (· == '\n') with
        | nil => exact absurd hsp (List.splitOnP_ne_nil _ cs)
        | cons h t =>
            show joinLines ([] :: h :: t) = '\n' :: cs
            show [] ++ '\n' :: joinLines (h :: t) = '\n' :: cs
            rw [← hsp] at *
            simp only [List.nil_append, List.cons_inj_right]
            exact ih
      · rw [if_neg (by simpa using hc)]
        cases hsp : cs.splitOnP (· == '\n') with
        | nil => exact absurd hsp (List.splitOnP_ne_nil _ cs)
        | cons h t =>
            simp only [List.modifyHead]
            simp only [List.splitOn] at ih
            rw [hsp] at ih
            cases t with
            | nil =>
                show joinLines [c :: h] = c :: cs
                show c :: h = c :: cs
                have : joinLines [h] = cs := ih
                simpa [joinLines] using this
            | cons y ys =>
                show joinLines ((c :: h) :: y :: ys) = c :: cs
                show (c :: h) ++ '\n' :: joinLines (y :: ys) = c :: cs
                have : h ++ '\n' :: joinLines (y :: ys) = cs := ih
                simpa using this

/-- Splitting a join of newline-free lines restores the lines. -/
theorem splitOn_joinLines :
    ∀ (M : List Str), M ≠ [] → (∀ l ∈ M, '\n' ∉ l) →
      (joinLines M).splitOn '\n' = M := by
  intro M
  induction M with
  | nil => intro h; exact absurd rfl h
  | cons l rest ih =>
      intro _ hfree
      cases rest with
      | nil =>
          show List.splitOnP (fun x => x == '\n') l = [l]
          refine List.splitOnP_eq_single _ _ ?_
          intro x hx
          simp only [beq_iff_eq]
          intro he
          subst he
          exact (hfree l (by simp)) hx
      | cons m t =>
          show (l ++ '\n' :: joinLines (m :: t)).splitOnP (· == '\n') = l :: m :: t
          have hl : ∀ x ∈ l, ¬((fun x => x == '\n') x = true) := by
            intro x hx
            simp only [beq_iff_eq]
            intro he
            subst he
            exact (hfree l (by simp)) hx
          rw [List.splitOnP_first _ _ hl '\n' (by simp)]
          have h2 := ih (by simp) (fun x hx => hfree x (by simp [hx]))
          simp only [List.splitOn] at h2
          rw [h2]

/-- With no carriage returns the line split is the plain newline split. -/
theorem jsSplitLines_eq_splitOn (s : Str) (h : '\r' ∉ s) :
    jsSplitLines s = s.splitOn '\n' := by
  unfold jsSplitLines
  apply map_self
  intro l hl
  rw [if_neg]
  intro hcr
  have hmem : '\r' ∈ l := List.mem_of_mem_getLast? (by rw [hcr]; rfl)
  exact h ((splitOnP_sub _ s l hl '\r' hmem).1)

/-- Lines produced by splitting a carriage-return-free string contain
neither newlines nor carriage returns. -/
theorem jsSplitLines_lines_free (s : Str) (h : '\r' ∉ s) :
    ∀ l ∈ jsSplitLines s, '\n' ∉ l ∧ '\r' ∉ l := by
  rw [jsSplitLines_eq_splitOn s h]
  intro l hl
  constructor
  · intro hx
    have := (splitOnP_sub _ s l hl '\n' hx).2
    simp at this
  · intro hx
    exact h ((splitOnP_sub _ s l hl '\r' hx).1)

/-- A character of a join is a newline or a character of some line. -/
theorem mem_joinLines :
    ∀ (M : List Str) (c : Char), c ∈ joinLines M →
      c = '\n' ∨ ∃ l ∈ M, c ∈ l := by
  intro M
  induction M with
  | nil => intro c hc; simp [joinLines] at hc
  | cons l rest ih =>
      intro c hc
      cases rest with
      | nil =>
          right
          exact ⟨l, by simp, by simpa [joinLines] using hc⟩
      | cons m t =>
          have hc2 : c ∈ l ++ '\n' :: joinLines (m :: t) := hc
          rcases List.mem_append.mp hc2 with h1 | h1
          · exact Or.inr ⟨l, by simp, h1⟩
          · rcases List.mem_cons.mp h1 with rfl | h2
            · exact Or.inl rfl
            · rcases ih c h2 with h3 | ⟨l2, hl2, hx⟩
              · exact Or.inl h3
              · exact Or.inr ⟨l2, by simp [hl2], hx⟩

/-- Joining the split of a carriage-return-free string restores it. -/
theorem joinLines_jsSplitLines (s : Str) (h : '\r' ∉ s) :
    joinLines (jsSplitLines s) = s := by
  rw [jsSplitLines_eq_splitOn s h, joinLines_splitOn]

/-- Splitting the join of newline-free, carriage-return-free lines restores
them. -/
theorem jsSplitLines_joinLines (M : List Str) (hne : M ≠ [])
    (hfree : ∀ l ∈ M, '\n' ∉ l ∧ '\r' ∉ l) :
    jsSplitLines (joinLines M) = M := by
  have hnc : '\r' ∉ joinLines M := by
    intro hc
    rcases mem_joinLines M '\r' hc with h1 | ⟨l, hl, hx⟩
    · exact absurd h1 (by decide)
    · exact (hfree l hl).2 hx
  rw [jsSplitLines_eq_splitOn _ hnc]
  exact splitOn_joinLines M hne (fun l hl => (hfree l hl).1)

/-- Appending one line to a join appends a newline and the line. -/
theorem joinLines_append_single :
    ∀ (M : List Str), M ≠ [] → ∀ (l : Str),
      joinLines (M ++ [l]) = joinLines M ++ '\n' :: l := by
  intro M
  induction M with
  | nil => intro h; exact absurd rfl h
  | cons a rest ih =>
      intro _ l
      cases rest with
      | nil => rfl
      | cons b t =>
          show joinLines (a :: (b :: t ++ [l])) =
            (a ++ '\n' :: joinLines (b :: t)) ++ '\n' :: l
          have step : joinLines (a :: (b :: (t ++ [l]))) =
              a ++ '\n' :: joinLines (b :: (t ++ [l])) := rfl
          rw [show b :: t ++ [l] = b :: (t ++ [l]) from rfl, step,
            show b :: (t ++ [l]) = (b :: t) ++ [l] from rfl,
            ih (by simp) l]
          simp

/-- The join of at least two newline-free lines ends in a newline exactly
when the last line is empty. -/
theorem joinLines_last_nl (M : List Str) (h2 : 2 ≤ M.length)
    (hfree : ∀ l ∈ M, '\n' ∉ l) :
    ((joinLines M).getLast? = some '\n') ↔ (M.getLast? = some []) := by
  have hne : M ≠ [] := by intro h; rw [h] at h2; simp at h2
  have hsplit := List.dropLast_append_getLast hne
  have hdne : M.dropLast ≠ [] := by
    intro h
    have := congrArg List.length hsplit
    rw [h] at this
    simp at this
    omega
  rw [← hsplit, joinLines_append_single _ hdne]
  have hmem : M.getLast hne ∈ M := List.getLast_mem hne
  cases hlast : M.getLast hne with
  | nil =>
      constructor
      · intro _
        rw [List.getLast?_concat]
      · intro _
        show (joinLines M.dropLast ++ ['\n']).getLast? = some '\n'
        rw [List.getLast?_concat]
  | cons c cs =>
      have hcfree : '\n' ∉ (c :: cs) := by
        have := hfree _ hmem
        rw [hlast] at this
        exact this
      constructor
      · intro h
        exfalso
        have heq : (joinLines M.dropLast ++ '\n' :: c :: cs).getLast? =
            (c :: cs).getLast? := by
          rw [show joinLines M.dropLast ++ '\n' :: c :: cs =
            (joinLines M.dropLast ++ ['\n']) ++ (c :: cs) by simp,
            List.getLast?_append]
          cases hx : (c :: cs).getLast? with
          | none => simp at hx
          | some d => simp [hx, Option.or]
        rw [heq] at h
        have hd : '\n' ∈ (c :: cs) := List.mem_of_mem_getLast? (by rw [h]; rfl)
        exact hcfree hd
      · intro h
        exfalso
        rw [List.getLast?_concat] at h
        simp at h

/-- Re-finalizing with a string's own trailing-newline flag changes
nothing. -/
theorem finalizeNewline_self (y : Str) :
    finalizeNewline y (y.getLast? == some '\n') = y := by
  unfold finalizeNewline
  by_cases h : y.getLast? = some '\n' <;> simp [h]

/-- Trailing non-space characters survive end-trimming. -/
theorem dropTrailingSpace_concat (u : Str) (c : Char)
    (h : jsIsSpace c = false) :
    dropTrailingSpace (u ++ [c]) = u ++ [c] := by
  unfold dropTrailingSpace
  rw [List.reverse_append]
  simp [List.dropWhile_cons, h]

/-- Trimming a string with a non-space final character only trims the
front. -/
theorem jsTrim_concat_nonspace (w : Str) (c : Char) (h : jsIsSpace c = false) :
    jsTrim (w ++ [c]) = (w.dropWhile jsIsSpace) ++ [c] := by
  unfold jsTrim
  rw [List.dropWhile_append]
  by_cases he : (w.dropWhile jsIsSpace).isEmpty
  · rw [if_pos he]
    have : List.dropWhile jsIsSpace [c] = [c] := by simp [List.dropWhile_cons, h]
    rw [this, List.isEmpty_iff.mp he]
    simpa using dropTrailingSpace_concat [] c h
  · rw [if_neg he]
    exact dropTrailingSpace_concat _ c h

/-- Hexadecimal digits are neither newlines nor carriage returns. -/
theorem lowHexDigit_free (n : Nat) (h : n < 16) :
    lowHexDigit n ≠ '\n' ∧ lowHexDigit n ≠ '\r' := by
  interval_cases n <;> exact ⟨by decide, by decide⟩

/-- The JSON escape of any character contains no newline and no carriage
return. -/
theorem jsonEscapeChar_free (c : Char) :
    ∀ x ∈ jsonEscapeChar c, x ≠ '\n' ∧ x ≠ '\r' := by
  intro x hx
  unfold jsonEscapeChar at hx
  split_ifs at hx with h1 h2 h3 h4 h5 h6 h7 h8
  · simp at hx
    rcases hx with rfl | rfl <;> exact ⟨by decide, by decide⟩
  · simp at hx
    subst hx
    exact ⟨by decide, by decide⟩
  · simp at hx
    rcases hx with rfl | rfl <;> exact ⟨by decide, by decide⟩
  · simp at hx
    rcases hx with rfl | rfl <;> exact ⟨by decide, by decide⟩
  · simp at hx
    rcases hx with rfl | rfl <;> exact ⟨by decide, by decide⟩
  · simp at hx
    rcases hx with rfl | rfl <;> exact ⟨by decide, by decide⟩
  · simp at hx
    rcases hx with rfl | rfl <;> exact ⟨by decide, by decide⟩
  · have h16a : c.toNat / 16 < 16 := by omega
    have h16b : c.toNat % 16 < 16 := Nat.mod_lt _ (by omega)
    simp only [List.mem_cons, List.not_mem_nil, or_false] at hx
    rcases hx with rfl | rfl | rfl | rfl | rfl | rfl
    · exact ⟨by decide, by decide⟩
    · exact ⟨by decide, by decide⟩
    · exact ⟨by decide, by decide⟩
    · exact ⟨by decide, by decide⟩
    · exact lowHexDigit_free _ h16a
    · exact lowHexDigit_free _ h16b
  · simp at hx
    subst hx
    exact ⟨fun he => h3 he, fun he => h4 he⟩

/-- The rendered field line contains no newline and no carriage return when
the field name contains none. -/
theorem renderedFieldLine_free (field value : Str)
    (hf : ∀ c ∈ field, c ≠ '\n' ∧ c ≠ '\r') :
    ∀ c ∈ renderedFieldLine field value, c ≠ '\n' ∧ c ≠ '\r' := by
  intro c hc
  unfold renderedFieldLine jsonStringify at hc
  rcases List.mem_append.mp hc with hc1 | hc1
  · rcases List.mem_append.mp hc1 with hc2 | hc2
    · exact hf c hc2
    · have : c = ':' ∨ c = ' ' := by simpa [s2l] using hc2
      rcases this with rfl | rfl <;> exact ⟨by decide, by decide⟩
  · rcases List.mem_cons.mp hc1 with rfl | hc2
    · exact ⟨by decide, by decide⟩
    · rcases List.mem_append.mp hc2 with hc3 | hc3
      · obtain ⟨a, _, hmem⟩ := List.mem_flatMap.mp hc3
        exact jsonEscapeChar_free a c hmem
      · have : c = '"' := by simpa using hc3
        subst this
        exact ⟨by decide, by decide⟩

/-- The rendered field line matches the source's field pattern. -/
theorem fieldMatch_rendered (field value : Str) :
    fieldMatch field (renderedFieldLine field value) = true := by
  unfold fieldMatch renderedFieldLine
  rw [show field ++ s2l ": " ++ jsonStringify value =
    field ++ (s2l ": " ++ jsonStringify value) from by simp [List.append_assoc]]
  rw [dropPre_append]
  rfl

/-- The rendered field line is not a closing delimiter. -/
theorem renderedFieldLine_not_delim (field value : Str) :
    (jsTrim (renderedFieldLine field value) == s2l "---") = false := by
  have hsh : renderedFieldLine field value =
      (field ++ s2l ": " ++ ('"' :: value.flatMap jsonEscapeChar)) ++ ['"'] := by
    simp [renderedFieldLine, jsonStringify, List.append_assoc]
  rw [hsh, jsTrim_concat_nonspace _ _ (by decide)]
  rw [beq_eq_false_iff_ne]
  intro heq
  have := congrArg List.getLast? heq
  rw [List.getLast?_concat] at this
  simp [s2l] at this

/-- Re-running the upsert on a fixpoint of the line transformation changes
nothing. -/
theorem upsert_fix (y field value : Str) (hCR : '\r' ∉ y)
    (hst : upsertLines field (renderedFieldLine field value)
      (jsSplitLines y) = some (jsSplitLines y)) :
    upsertFrontmatterField y field value = y := by
  unfold upsertFrontmatterField
  simp only [hst]
  rw [joinLines_jsSplitLines y hCR]
  exact finalizeNewline_self y

/-- The block update performed by `upsertLines`: replace the first line
matching the field pattern, or append the rendered line at the end of the
block. -/
def upsertBlock (field rendered : Str) (B : List Str) : List Str :=
  match B.findIdx? (fieldMatch field) with
  | some j => B.set j rendered
  | none => B ++ [rendered]

/-- On a document shaped as opening delimiter, delimiter-free block,
closing delimiter and tail, `upsertLines` acts as `upsertBlock` on the
block. -/
theorem upsertLines_shape (field rendered l0 : Str) (B : List Str) (d : Str)
    (tail : List Str) (h0 : jsTrim l0 = s2l "---")
    (hB : ∀ b ∈ B, (jsTrim b == s2l "---") = false)
    (hd : (jsTrim d == s2l "---") = true) :
    upsertLines field rendered (l0 :: (B ++ d :: tail)) =
      some (l0 :: (upsertBlock field rendered B ++ d :: tail)) := by
  unfold upsertLines
  rw [if_pos (by simp [h0])]
  have hclose : findClosingDelim (l0 :: (B ++ d :: tail)) =
      some (B.length + 1) := by
    unfold findClosingDelim
    rw [show (l0 :: (B ++ d :: tail)).drop 1 = B ++ d :: tail from rfl]
    rw [findIdx?_front _ B d tail hB hd]
    rfl
  rw [hclose]
  have hblock : (((l0 :: (B ++ d :: tail)).take (B.length + 1)).drop 1) = B := by
    rw [show (l0 :: (B ++ d :: tail)).take (B.length + 1) =
      l0 :: (B ++ d :: tail).take B.length from rfl]
    rw [List.take_left]
    rfl
  dsimp only
  rw [hblock]
  unfold upsertBlock
  cases hj : B.findIdx? (fieldMatch field) with
  | some j =>
      dsimp only
      obtain ⟨A, x, B2, hBeq, hlen, _, _⟩ := findIdx?_decomp _ B j hj
      have hjlt : j < B.length := by
        rw [hBeq, ← hlen]
        simp
      have hstep : (l0 :: (B ++ d :: tail)).set (j + 1) rendered =
          l0 :: (B ++ d :: tail).set j rendered := rfl
      rw [hstep, set_append_left B j hjlt rendered (d :: tail)]
  | none =>
      dsimp only
      have hstep : (l0 :: (B ++ d :: tail)).insertIdx (B.length + 1) rendered =
          l0 :: (B ++ d :: tail).insertIdx B.length rendered := by
        rw [List.insertIdx_succ_cons]
      rw [hstep, insertIdx_at_append B rendered (d :: tail)]
      simp

/-- The block update is a fixpoint when the first field-pattern match
already holds the rendered line. -/
theorem upsertBlock_fix (field rendered : Str) (B : List Str) (j : Nat)
    (hj : B.findIdx? (fieldMatch field) = some j)
    (hval : B[j]? = some rendered) :
    upsertBlock field rendered B = B := by
  unfold upsertBlock
  rw [hj]
  exact set_same B j rendered hval

/-- After one block update the first field-pattern match holds the rendered
line, the block stays delimiter-free, and with at most one match before
there is exactly one after. -/
theorem upsertBlock_good (field value : Str) (B : List Str)
    (hB : ∀ b ∈ B, (jsTrim b == s2l "---") = false) :
    (∀ b ∈ upsertBlock field (renderedFieldLine field value) B,
      (jsTrim b == s2l "---") = false) ∧
    (∃ j, (upsertBlock field (renderedFieldLine field value) B).findIdx?
        (fieldMatch field) = some j ∧
      (upsertBlock field (renderedFieldLine field value) B)[j]? =
        some (renderedFieldLine field value)) ∧
    (B.countP (fieldMatch field) ≤ 1 →
      (upsertBlock field (renderedFieldLine field value) B).countP
        (fieldMatch field) ≤ 1) := by
  set r := renderedFieldLine field value with hr
  cases hj : B.findIdx? (fieldMatch field) with
  | some j =>
      obtain ⟨A, x, B2, hBeq, hlen, hAf, hxt⟩ := findIdx?_decomp _ B j hj
      have hub : upsertBlock field r B = A ++ r :: B2 := by
        unfold upsertBlock
        rw [hj, hBeq, ← hlen]
        exact set_at_append A x B2 r
      rw [hub]
      refine ⟨?_, ⟨A.length, ?_, ?_⟩, ?_⟩
      · intro b hb
        rcases List.mem_append.mp hb with hb2 | hb2
        · exact hB b (by rw [hBeq]; exact List.mem_append.mpr (Or.inl hb2))
        · rcases List.mem_cons.mp hb2 with rfl | hb3
          · exact renderedFieldLine_not_delim field value
          · exact hB b (by
              rw [hBeq]
              exact List.mem_append.mpr (Or.inr (List.mem_cons.mpr (Or.inr hb3))))
      · exact findIdx?_front _ A r B2 hAf (by rw [hr]; exact fieldMatch_rendered field value)
      · exact getElem?_at_append A r B2
      · intro hcount
        rw [List.countP_append]
        rw [hBeq, List.countP_append] at hcount
        have hA0 : A.countP (fieldMatch field) = 0 :=
          List.countP_eq_zero.mpr (fun a ha => by simp [hAf a ha])
        have hx1 : List.countP (fieldMatch field) (x :: B2) =
            1 + B2.countP (fieldMatch field) := by
          simp [List.countP_cons, hxt]
          omega
        have hr1 : List.countP (fieldMatch field) (r :: B2) =
            1 + B2.countP (fieldMatch field) := by
          simp [List.countP_cons, hr, fieldMatch_rendered field value]
          omega
        omega
  | none =>
      have hall := findIdx?_none_all _ B hj
      have hub : upsertBlock field r B = B ++ [r] := by
        unfold upsertBlock
        rw [hj]
      rw [hub]
      clear hub
      refine ⟨?_, ⟨B.length, ?_, ?_⟩, ?_⟩
      · intro b hb
        rcases List.mem_append.mp hb with hb2 | hb2
        · exact hB b hb2
        · have hbr : b = r := by simpa using hb2
          rw [hbr, hr]
          exact renderedFieldLine_not_delim field value
      · exact findIdx?_front _ B r [] hall (by rw [hr]; exact fieldMatch_rendered field value)
      · exact getElem?_at_append B r []
      · intro _
        rw [List.countP_append]
        have hB0 : B.countP (fieldMatch field) = 0 :=
          List.countP_eq_zero.mpr (fun a ha => by simp [hall a ha])
        have h1 : List.countP (fieldMatch field) [r] = 1 := by
          rw [List.countP_cons, List.countP_nil, hr,
            fieldMatch_rendered field value]
          rfl
        omega

/-- Splitting the finalized join of at least two newline- and
carriage-return-free lines yields the lines, possibly with one trailing
empty line added or removed to honour the newline convention. -/
theorem jsSplitLines_finalize (M : List Str) (h2 : 2 ≤ M.length)
    (hfree : ∀ l ∈ M, '\n' ∉ l ∧ '\r' ∉ l) (h : Bool) :
    jsSplitLines (finalizeNewline (joinLines M) h) =
      if M.getLast? = some [] then (if h then M else M.dropLast)
      else (if h then M ++ [[]] else M) := by
  have hne : M ≠ [] := by intro he; rw [he] at h2; simp at h2
  have hnl : ∀ l ∈ M, '\n' ∉ l := fun l hl => (hfree l hl).1
  have hiff := joinLines_last_nl M h2 hnl
  unfold finalizeNewline
  by_cases hlast : M.getLast? = some []
  · have hJ : (joinLines M).getLast? = some '\n' := hiff.mpr hlast
    rw [if_pos hlast]
    cases h with
    | true =>
        simp only [if_pos hJ, if_true]
        exact jsSplitLines_joinLines M hne hfree
    | false =>
        simp only [if_pos hJ]
        have hgl : M.getLast hne = [] := by
          have h3 := List.getLast?_eq_getLast M hne
          rw [hlast] at h3
          exact (Option.some_inj.mp h3.symm)
        have hdne : M.dropLast ≠ [] := by
          intro hzz
          have := congrArg List.length (List.dropLast_append_getLast hne)
          rw [hzz] at this
          simp at this
          omega
        have hM : M = M.dropLast ++ [[]] := by
          conv_lhs => rw [← List.dropLast_append_getLast hne]
          rw [hgl]
        have hJoin : joinLines M = joinLines M.dropLast ++ ['\n'] := by
          conv_lhs => rw [hM]
          rw [joinLines_append_single _ hdne]
        rw [hJoin, List.dropLast_concat]
        show jsSplitLines (joinLines M.dropLast) = M.dropLast
        exact jsSplitLines_joinLines _ hdne
          (fun l hl => hfree l (by
            rw [hM]
            exact List.mem_append.mpr (Or.inl hl)))
  · have hJ : ¬((joinLines M).getLast? = some '\n') := fun hc => hlast (hiff.mp hc)
    rw [if_neg hlast]
    cases h with
    | true =>
        simp only [if_neg hJ]
        have : joinLines M ++ s2l "\n" = joinLines (M ++ [[]]) := by
          rw [joinLines_append_single _ hne]
          rfl
        rw [this]
        refine jsSplitLines_joinLines _ (by simp) ?_
        intro l hl
        rcases List.mem_append.mp hl with hl2 | hl2
        · exact hfree l hl2
        · have : l = [] := by simpa using hl2
          rw [this]
          exact ⟨by simp, by simp⟩
    | false =>
        simp only [if_neg hJ]
        exact jsSplitLines_joinLines M hne hfree

/-- A successful `upsertLines` forces the delimiter decomposition of its
input and acts as `upsertBlock` on the block. -/
theorem upsertLines_some_decomp (field rendered : Str) (L M : List Str)
    (h : upsertLines field rendered L = some M) :
    ∃ l0 B d tail, L = l0 :: (B ++ d :: tail) ∧ jsTrim l0 = s2l "---" ∧
      (∀ b ∈ B, (jsTrim b == s2l "---") = false) ∧
      (jsTrim d == s2l "---") = true ∧
      M = l0 :: (upsertBlock field rendered B ++ d :: tail) := by
  have h' := h
  unfold upsertLines at h'
  by_cases hh : L.head?.map jsTrim = some (s2l "---")
  · cases L with
    | nil => simp at hh
    | cons l0 rest =>
        have h0 : jsTrim l0 = s2l "---" := by simpa using hh
        cases hc : findClosingDelim (l0 :: rest) with
        | none => rw [if_pos hh, hc] at h'; exact absurd h' (by simp)
        | some ci =>
            unfold findClosingDelim at hc
            rw [show (l0 :: rest).drop 1 = rest from rfl] at hc
            obtain ⟨k, hk, hci⟩ := Option.map_eq_some'.mp hc
            obtain ⟨B, d, tail, hrest, hlen, hBf, hdt⟩ :=
              findIdx?_decomp _ rest k hk
            subst hrest
            have hshape := upsertLines_shape field rendered l0 B d tail
              h0 hBf hdt
            rw [hshape] at h
            exact ⟨l0, B, d, tail, rfl, h0, hBf, hdt,
              (Option.some_inj.mp h).symm⟩
  · rw [if_neg hh] at h'
    exact absurd h' (by simp)

/-- Documents already carrying the rendered line at the block's first match
are fixpoints of the line transformation. -/
theorem upsertLines_stable (field value l0 : Str) (B : List Str) (d : Str)
    (tail : List Str) (j : Nat)
    (h0 : jsTrim l0 = s2l "---")
    (hB : ∀ b ∈ B, (jsTrim b == s2l "---") = false)
    (hd : (jsTrim d == s2l "---") = true)
    (hj : B.findIdx? (fieldMatch field) = some j)
    (hval : B[j]? = some (renderedFieldLine field value)) :
    upsertLines field (renderedFieldLine field value)
      (l0 :: (B ++ d :: tail)) = some (l0 :: (B ++ d :: tail)) := by
  rw [upsertLines_shape field _ l0 B d tail h0 hB hd,
    upsertBlock_fix field _ B j hj hval]

/-- Characters of a finalized string come from the string or are
newlines. -/
theorem mem_finalizeNewline (t : Str) (h : Bool) :
    ∀ c ∈ finalizeNewline t h, c ∈ t ∨ c = '\n' := by
  intro c hc
  unfold finalizeNewline at hc
  split_ifs at hc
  · exact Or.inl hc
  · rcases List.mem_append.mp hc with h1 | h1
    · exact Or.inl h1
    · exact Or.inr (by simpa [s2l] using h1)
  · exact Or.inl (List.dropLast_sublist t |>.mem hc)
  · exact Or.inl hc

/-- Splitting a line followed by a newline peels off that line. -/
theorem jsSplitLines_cons_line (x rest : Str) (hx : '\n' ∉ x)
    (hcr : x.getLast? ≠ some '\r') :
    jsSplitLines (x ++ '\n' :: rest) = x :: jsSplitLines rest := by
  unfold jsSplitLines
  have hp : ∀ a ∈ x, ¬((fun c => c == '\n') a = true) := by
    intro a ha
    simp only [beq_iff_eq]
    intro he
    subst he
    exact hx ha
  rw [show (x ++ '\n' :: rest).splitOn '\n' =
    (x ++ '\n' :: rest).splitOnP (· == '\n') from rfl]
  rw [List.splitOnP_first _ x hp '\n' (by simp) rest]
  rw [show (rest.splitOn '\n') = rest.splitOnP (· == '\n') from rfl]
  simp only [List.map_cons, if_neg hcr]

/-- The split of the finalized block-shaped join keeps the head, block and
closing delimiter, changing only the tail. -/
theorem upsert_output_splits (l0 : Str) (B : List Str) (d : Str)
    (tail : List Str) (h : Bool)
    (hd : (jsTrim d == s2l "---") = true)
    (hfreeAll : ∀ l ∈ l0 :: (B ++ d :: tail), '\n' ∉ l ∧ '\r' ∉ l) :
    ∃ tail2, jsSplitLines (finalizeNewline
        (joinLines (l0 :: (B ++ d :: tail))) h) =
      l0 :: (B ++ d :: tail2) := by
  have hdne : d ≠ [] := by
    intro hdz
    rw [hdz] at hd
    exact absurd hd (by decide)
  have h2 : 2 ≤ (l0 :: (B ++ d :: tail)).length := by simp; omega
  rw [jsSplitLines_finalize _ h2 hfreeAll h]
  by_cases hlast : (l0 :: (B ++ d :: tail)).getLast? = some []
  · rw [if_pos hlast]
    cases h with
    | true => exact ⟨tail, by simp⟩
    | false =>
        have htne : tail ≠ [] := by
          intro htz
          rw [htz] at hlast
          rw [show l0 :: (B ++ d :: []) = (l0 :: B) ++ [d] from by simp] at hlast
          rw [List.getLast?_concat] at hlast
          exact hdne (Option.some_inj.mp hlast)
        obtain ⟨t', u, rfl⟩ : ∃ t' u, tail = t' ++ [u] :=
          ⟨tail.dropLast, tail.getLast htne,
            (List.dropLast_append_getLast htne).symm⟩
        have hshape : l0 :: (B ++ d :: (t' ++ [u])) =
            (l0 :: (B ++ d :: t')) ++ [u] := by simp
        rw [hshape, List.dropLast_concat]
        exact ⟨t', by simp⟩
  · rw [if_neg hlast]
    cases h with
    | true =>
        refine ⟨tail ++ [[]], ?_⟩
        rw [if_pos rfl]
        simp
    | false => exact ⟨tail, by simp⟩

/-- The field-line count of a document equals the block count in its
delimiter decomposition. -/
theorem fieldLineCount_shape (field md l0 : Str) (B : List Str)
    (d : Str) (tail : List Str)
    (hdecomp : jsSplitLines md = l0 :: (B ++ d :: tail))
    (h0 : jsTrim l0 = s2l "---")
    (hB : ∀ b ∈ B, (jsTrim b == s2l "---") = false)
    (hd : (jsTrim d == s2l "---") = true) :
    fieldLineCount md field = B.countP (fieldMatch field) := by
  unfold fieldLineCount
  rw [hdecomp]
  rw [if_pos (by simp [h0])]
  have hclose : findClosingDelim (l0 :: (B ++ d :: tail)) =
      some (B.length + 1) := by
    unfold findClosingDelim
    rw [show (l0 :: (B ++ d :: tail)).drop 1 = B ++ d :: tail from rfl]
    rw [findIdx?_front _ B d tail hB hd]
    rfl
  rw [hclose]
  have hblock : (((l0 :: (B ++ d :: tail)).take (B.length + 1)).drop 1) = B := by
    rw [show (l0 :: (B ++ d :: tail)).take (B.length + 1) =
      l0 :: (B ++ d :: tail).take B.length from rfl]
    rw [List.take_left]
    rfl
  dsimp only
  rw [hblock]

/-- Lines after a block update come from the block or are the rendered
line. -/
theorem mem_upsertBlock (field r : Str) (B : List Str) :
    ∀ b ∈ upsertBlock field r B, b ∈ B ∨ b = r := by
  intro b hb
  unfold upsertBlock at hb
  cases hj : B.findIdx? (fieldMatch field) with
  | some j =>
      rw [hj] at hb
      exact List.mem_or_eq_of_mem_set hb
  | none =>
      rw [hj] at hb
      rcases List.mem_append.mp hb with h1 | h1
      · exact Or.inl h1
      · exact Or.inr (by simpa using h1)

/-- Splitting the finalized synthesized document yields the opening
delimiter, the rendered line, the closing delimiter, and some tail. -/
theorem upsert_synth_splits (r md : Str) (hCR : '\r' ∉ md)
    (hrfree : ∀ c ∈ r, c ≠ '\n' ∧ c ≠ '\r') :
    ∃ K, jsSplitLines (finalizeNewline
        (joinLines [s2l "---", r, s2l "---", md]) (md.getLast? == some '\n')) =
      s2l "---" :: r :: s2l "---" :: K := by
  have hrnl : '\n' ∉ r := fun hm => (hrfree '\n' hm).1 rfl
  have hrlast : r.getLast? ≠ some '\r' := by
    intro hc
    exact (hrfree '\r' (List.mem_of_mem_getLast? (by rw [hc]; rfl))).2 rfl
  have hJ : joinLines [s2l "---", r, s2l "---", md] =
      s2l "---" ++ '\n' :: (r ++ '\n' :: (s2l "---" ++ '\n' :: md)) := rfl
  by_cases hmd : md = []
  · subst hmd
    refine ⟨[], ?_⟩
    have hflag : ((([] : Str).getLast? == some '\n')) = false := by decide
    rw [hflag, hJ]
    have hsplit : s2l "---" ++ '\n' :: (r ++ '\n' :: (s2l "---" ++ '\n' :: [])) =
        (s2l "---" ++ '\n' :: (r ++ '\n' :: s2l "---")) ++ ['\n'] := by
      simp
    rw [hsplit]
    unfold finalizeNewline
    rw [if_neg (by simp), if_pos (List.getLast?_concat _), List.dropLast_concat]
    rw [jsSplitLines_cons_line _ _ (by decide) (by decide)]
    rw [jsSplitLines_cons_line _ _ hrnl hrlast]
    rfl
  · obtain ⟨u, hu⟩ : ∃ u, md.getLast? = some u := by
      cases hx : md.getLast? with
      | none => exact absurd (List.getLast?_eq_none_iff.mp hx) hmd
      | some u => exact ⟨u, rfl⟩
    have hpre : joinLines [s2l "---", r, s2l "---", md] =
        (s2l "---" ++ '\n' :: (r ++ '\n' :: (s2l "---" ++ ['\n']))) ++ md := by
      rw [hJ]
      simp
    have hJlast : (joinLines [s2l "---", r, s2l "---", md]).getLast? = some u := by
      rw [hpre, List.getLast?_append, hu]
      rfl
    have hy : finalizeNewline (joinLines [s2l "---", r, s2l "---", md])
        (md.getLast? == some '\n') = joinLines [s2l "---", r, s2l "---", md] := by
      unfold finalizeNewline
      rw [hu]
      by_cases hun : u = '\n'
      · subst hun
        rw [if_pos (by rfl), if_pos hJlast]
      · have hb : ((some u == some '\n') : Bool) = false := by
          simp [hun]
        rw [hb, if_neg (by simp), if_neg (by rw [hJlast]; simp [hun])]
    rw [hy, hJ]
    rw [jsSplitLines_cons_line _ _ (by decide) (by decide)]
    rw [jsSplitLines_cons_line _ _ hrnl hrlast]
    rw [jsSplitLines_cons_line _ _ (by decide) (by decide)]
    exact ⟨jsSplitLines md, rfl⟩

/-- C7 counterexample: a document whose frontmatter already holds two
`AT_URL` lines keeps both after the upsert — the result contains the
field's key line more than once. -/
theorem upsertFrontmatterField_duplicate_key :
    fieldLineCount (upsertFrontmatterField
        (s2l "---\nAT_URL: \"a\"\nAT_URL: \"b\"\n---\nbody\n")
        (s2l "AT_URL") (s2l "c")) (s2l "AT_URL") = 2 ∧ 1 < 2 :=
  ⟨rfl, by decide⟩

/-- C7 (amended): for every carriage-return-free document and every field
name free of newlines and carriage returns, `upsertFrontmatterField` is
idempotent; and whenever the document's frontmatter block holds at most one
line matching the field's key pattern, the result holds at most one (a
pre-existing duplicate is preserved, not removed). -/
theorem upsertFrontmatterField_idempotent :
    ∀ (markdown field value : Str),
      '\r' ∉ markdown →
      (∀ c ∈ field, c ≠ '\n' ∧ c ≠ '\r') →
      (upsertFrontmatterField (upsertFrontmatterField markdown field value)
          field value = upsertFrontmatterField markdown field value) ∧
      (fieldLineCount markdown field ≤ 1 →
        fieldLineCount (upsertFrontmatterField markdown field value) field ≤ 1) := by
  intro md field value hCR hfield
  have hrfree := renderedFieldLine_free field value hfield
  have hlinesfree := jsSplitLines_lines_free md hCR
  cases hU : upsertLines field (renderedFieldLine field value)
      (jsSplitLines md) with
  | none =>
      have hfx : upsertFrontmatterField md field value =
          finalizeNewline (joinLines [s2l "---", renderedFieldLine field value,
            s2l "---", md]) (md.getLast? == some '\n') := by
        simp only [upsertFrontmatterField]
        rw [hU]
      obtain ⟨K, hK⟩ :=
        upsert_synth_splits (renderedFieldLine field value) md hCR hrfree
      have hnoCR : '\r' ∉ upsertFrontmatterField md field value := by
        rw [hfx]
        intro hc
        rcases mem_finalizeNewline _ _ '\r' hc with hc1 | hc1
        · rcases mem_joinLines _ '\r' hc1 with h1 | ⟨l, hl, hx⟩
          · exact absurd h1 (by decide)
          · simp only [List.mem_cons, List.not_mem_nil, or_false] at hl
            rcases hl with rfl | rfl | rfl | rfl
            · exact absurd hx (by decide)
            · exact (hrfree '\r' hx).2 rfl
            · exact absurd hx (by decide)
            · exact hCR hx
        · exact absurd hc1 (by decide)
      have hdec2 : jsSplitLines (upsertFrontmatterField md field value) =
          s2l "---" :: ([renderedFieldLine field value] ++ s2l "---" :: K) := by
        rw [hfx]
        exact hK
      have hBf : ∀ b ∈ [renderedFieldLine field value],
          (jsTrim b == s2l "---") = false := by
        intro b hb
        have hbr : b = renderedFieldLine field value := by simpa using hb
        rw [hbr]
        exact renderedFieldLine_not_delim field value
      have hjr : List.findIdx? (fieldMatch field)
          [renderedFieldLine field value] = some 0 := by
        have := findIdx?_front (fieldMatch field) []
          (renderedFieldLine field value) [] (by simp)
          (fieldMatch_rendered field value)
        simpa using this
      have hstable : upsertLines field (renderedFieldLine field value)
          (jsSplitLines (upsertFrontmatterField md field value)) =
          some (jsSplitLines (upsertFrontmatterField md field value)) := by
        rw [hdec2]
        exact upsertLines_stable field value (s2l "---")
          [renderedFieldLine field value] (s2l "---") K 0
          (by decide) hBf (by decide) hjr (by simp)
      constructor
      · exact upsert_fix _ field value hnoCR hstable
      · intro _
        rw [fieldLineCount_shape field _ (s2l "---")
          [renderedFieldLine field value] (s2l "---") K hdec2
          (by decide) hBf (by decide)]
        rw [List.countP_cons, List.countP_nil, fieldMatch_rendered field value]
        decide
  | some M =>
      obtain ⟨l0, B, d, tail, hdec, h0, hB, hd, hM⟩ :=
        upsertLines_some_decomp field (renderedFieldLine field value) _ M hU
      obtain ⟨hBfree', hEx, hCount⟩ := upsertBlock_good field value B hB
      obtain ⟨j', hj', hval'⟩ := hEx
      have hfx : upsertFrontmatterField md field value =
          finalizeNewline (joinLines (l0 ::
            (upsertBlock field (renderedFieldLine field value) B ++ d :: tail)))
            (md.getLast? == some '\n') := by
        simp only [upsertFrontmatterField]
        rw [hU, hM]
      have hfreeM : ∀ l ∈ l0 ::
          (upsertBlock field (renderedFieldLine field value) B ++ d :: tail),
          '\n' ∉ l ∧ '\r' ∉ l := by
        intro l hl
        rcases List.mem_cons.mp hl with rfl | hl2
        · exact hlinesfree l (by rw [hdec]; simp)
        · rcases List.mem_append.mp hl2 with hl3 | hl3
          · rcases mem_upsertBlock field _ B l hl3 with hl4 | rfl
            · exact hlinesfree l (by rw [hdec]; simp [hl4])
            · constructor
              · exact fun hm => (hrfree '\n' hm).1 rfl
              · exact fun hm => (hrfree '\r' hm).2 rfl
          · rcases List.mem_cons.mp hl3 with rfl | hl4
            · exact hlinesfree l (by rw [hdec]; simp)
            · exact hlinesfree l (by rw [hdec]; simp [hl4])
      obtain ⟨tail2, hsp2⟩ : ∃ tail2,
          jsSplitLines (upsertFrontmatterField md field value) =
          l0 :: (upsertBlock field (renderedFieldLine field value) B ++
            d :: tail2) := by
        rw [hfx]
        exact upsert_output_splits l0 _ d tail _ hd hfreeM
      have hnoCR : '\r' ∉ upsertFrontmatterField md field value := by
        rw [hfx]
        intro hc
        rcases mem_finalizeNewline _ _ '\r' hc with hc1 | hc1
        · rcases mem_joinLines _ '\r' hc1 with h1 | ⟨l, hl, hx⟩
          · exact absurd h1 (by decide)
          · exact (hfreeM l hl).2 hx
        · exact absurd hc1 (by decide)
      constructor
      · apply upsert_fix _ field value hnoCR
        rw [hsp2]
        exact upsertLines_stable field value l0 _ d tail2 j'
          h0 hBfree' hd hj' hval'
      · intro hcount1
        have hcB : B.countP (fieldMatch field) ≤ 1 := by
          rw [fieldLineCount_shape field md l0 B d tail hdec h0 hB hd]
            at hcount1
          exact hcount1
        rw [fieldLineCount_shape field _ l0 _ d tail2 hsp2 h0 hBfree' hd]
        exact hCount hcB

/-- Witness for `upsertFrontmatterField_idempotent` at a concrete input. -/
theorem upsertFrontmatterField_idempotent_witness :
    upsertFrontmatterField (upsertFrontmatterField
        (s2l "---\ntitle: Launch\n---\nBody\n") (s2l "AT_URL") (s2l "u"))
        (s2l "AT_URL") (s2l "u") =
      upsertFrontmatterField (s2l "---\ntitle: Launch\n---\nBody\n")
        (s2l "AT_URL") (s2l "u") ∧
    fieldLineCount (upsertFrontmatterField
        (s2l "---\ntitle: Launch\n---\nBody\n") (s2l "AT_URL") (s2l "u"))
      (s2l "AT_URL") ≤ 1 := by
  have h := upsertFrontmatterField_idempotent
    (s2l "---\ntitle: Launch\n---\nBody\n") (s2l "AT_URL") (s2l "u")
    (by decide) (by decide)
  exact ⟨h.1, h.2 (by decide)⟩

/-- Witness for `resolveBacklinkUrl_total` at a concrete input. -/
theorem resolveBacklinkUrl_total_witness :
    ∃ s, resolveBacklinkUrl ⟨s2l "posts/a.md", s2l "posts", [],
        ⟨[], [], [], [], "post", s2l "https://x.y/"⟩⟩ = some s ∧
      trimTrailingSlash (s2l "https://x.y/") <+: s :=
  resolveBacklinkUrl_total
    ⟨s2l "posts/a.md", s2l "posts", [],
      ⟨[], [], [], [], "post", s2l "https://x.y/"⟩⟩ (by decide)

end Noat
